import Mathlib

/-!
Verification development for the singlebase-py dict/JSON utility library
(`src/singlebase/lib.py`) and the request dispatcher (`src/singlebase/client.py`).

Modelling conventions:
* Python JSON-like values are the inductive type `JVal`.  Python `dict`s are
  insertion-ordered association lists `List (String × JVal)`; the operations
  `dget?` (lookup), `dset` (`d[k] = v`: replace in place or append) and
  `dictUpdate` (`d.update(e)`) mirror the CPython semantics.  Equality of the
  embedding is list equality, which is finer than Python `==` (it also fixes
  insertion order), so every positive equality proved here implies the Python
  one.
* Raised exceptions are modelled with `Except`/`Option`; structured error
  values carry the data that the Python code interpolates into its message
  strings (for example the full offending dot path of the unflatten
  `AttributeError`).
* External libraries (`arrow`, `datetime`, `json`, `requests`, `aiohttp`) are
  not part of this repository; they are abstracted at the boundary: the JSON
  text layer is treated as the identity on parsed trees, date/time formatting
  and parsing are a `TimeCodec` parameter, and an HTTP round trip is an
  `HttpOutcome` input value.
-/

namespace SinglebaseSpec

/-- JSON-like values as manipulated by `lib.py`.  `date` models a rich
date/time object (an `arrow.Arrow` style value) as an instant (UTC epoch
seconds) together with a UTC offset in minutes; two such values denote the
same instant iff their `instant` components agree. -/
inductive JVal where
  | null : JVal
  | bool (b : Bool) : JVal
  | int (n : Int) : JVal
  | str (s : String) : JVal
  | date (instant : Int) (offsetMin : Int) : JVal
  | arr (elems : List JVal) : JVal
  | obj (entries : List (String × JVal)) : JVal

mutual

/-- Boolean equality on `JVal` (structural). -/
def beqV : JVal → JVal → Bool
  | .null, .null => true
  | .bool a, .bool b => a == b
  | .int a, .int b => a == b
  | .str a, .str b => a == b
  | .date a b, .date c d => a == c && b == d
  | .arr a, .arr b => beqL a b
  | .obj a, .obj b => beqO a b
  | _, _ => false
termination_by a b => sizeOf a + sizeOf b

/-- Boolean equality on lists of `JVal`. -/
def beqL : List JVal → List JVal → Bool
  | [], [] => true
  | a :: as, b :: bs => beqV a b && beqL as bs
  | _, _ => false
termination_by a b => sizeOf a + sizeOf b

/-- Boolean equality on entry lists. -/
def beqO : List (String × JVal) → List (String × JVal) → Bool
  | [], [] => true
  | (k1, v1) :: as, (k2, v2) :: bs => k1 == k2 && beqV v1 v2 && beqO as bs
  | _, _ => false
termination_by a b => sizeOf a + sizeOf b

end

mutual

/-- `beqV` decides equality. -/
def beqV_eq : ∀ a b : JVal, beqV a b = true ↔ a = b := by
  intro a b
  cases a with
  | null => cases b <;> simp [beqV]
  | bool x => cases b <;> simp [beqV]
  | int n => cases b <;> simp [beqV]
  | str s => cases b <;> simp [beqV]
  | date i o => cases b <;> simp [beqV]
  | arr l =>
    cases b <;> simp [beqV]
    exact beqL_eq l _
  | obj m =>
    cases b <;> simp [beqV]
    exact beqO_eq m _
termination_by a b => sizeOf a + sizeOf b

/-- `beqL` decides equality. -/
def beqL_eq : ∀ a b : List JVal, beqL a b = true ↔ a = b := by
  intro a b
  cases a with
  | nil => cases b <;> simp [beqL]
  | cons x as =>
    cases b with
    | nil => simp [beqL]
    | cons y bs =>
      simp [beqL, beqV_eq x y, beqL_eq as bs]
termination_by a b => sizeOf a + sizeOf b

/-- `beqO` decides equality. -/
def beqO_eq : ∀ a b : List (String × JVal), beqO a b = true ↔ a = b := by
  intro a b
  cases a with
  | nil => cases b <;> simp [beqO]
  | cons x as =>
    obtain ⟨k1, v1⟩ := x
    cases b with
    | nil => simp [beqO]
    | cons y bs =>
      obtain ⟨k2, v2⟩ := y
      simp [beqO, beqV_eq v1 v2, beqO_eq as bs, Prod.ext_iff, and_assoc]
termination_by a b => sizeOf a + sizeOf b

end

instance : DecidableEq JVal := fun a b => decidable_of_iff _ (beqV_eq a b)

/-- A Python dict with string keys, as an insertion-ordered association list. -/
abbrev Obj := List (String × JVal)

/-- Dict lookup, `d[k]` / `d.get(k)`: first entry with the given key. -/
def dget? : Obj → String → Option JVal
  | [], _ => none
  | (k', v') :: rest, k => if k' = k then some v' else dget? rest k

/-- Python `k in d`. -/
def containsKey (d : Obj) (k : String) : Bool :=
  (dget? d k).isSome

/-- Dict assignment `d[k] = v`: replace the value in place if the key exists,
otherwise append a new entry (CPython insertion-order semantics). -/
def dset : Obj → String → JVal → Obj
  | [], k, v => [(k, v)]
  | (k', v') :: rest, k, v => if k' = k then (k', v) :: rest else (k', v') :: dset rest k v

/-- Dict update `d.update(e)`: assign every entry of `e` into `d` in order. -/
def dictUpdate (d : Obj) (e : Obj) : Obj :=
  e.foldl (fun acc kv => dset acc kv.1 kv.2) d

/-- Python truthiness of a `JVal` (used by the `x or default` idioms of
`Result.__init__`). -/
def truthy : JVal → Bool
  | .null => false
  | .bool b => b
  | .int n => n != 0
  | .str s => s != ""
  | .date _ _ => true
  | .arr l => !l.isEmpty
  | .obj m => !m.isEmpty

/-! ## Dot-path string utilities

`flatten_dict` builds keys with `sep.join([_str, k]).strip(sep)` and
`unflatten_dict` splits them with `k.split(".")`.  We embed `str.strip('.')`
and `str.split('.')` directly on the character list of the string. -/

/-- Python `s.strip('.')`: remove every leading and trailing `'.'`. -/
def stripDots (s : String) : String :=
  ⟨(((s.data.dropWhile (fun c => c == '.')).reverse.dropWhile (fun c => c == '.')).reverse)⟩

/-- Helper for `splitDot`; `acc` holds the current segment reversed. -/
def splitDotAux : List Char → List Char → List String
  | [], acc => [⟨acc.reverse⟩]
  | c :: rest, acc =>
    if c == '.' then ⟨acc.reverse⟩ :: splitDotAux rest []
    else splitDotAux rest (c :: acc)

/-- Python `s.split('.')` (always returns at least one piece). -/
def splitDot (s : String) : List String :=
  splitDotAux s.data []

/-- Join path segments with `"."`; inverse of `splitDot` on dot-free
segments. -/
def dotJoin : List String → String
  | [] => ""
  | [s] => s
  | s :: rest => s ++ "." ++ dotJoin rest

/-- Key condition of the round-trip claim: a non-empty string that contains no
literal `'.'` and is not purely numeric. -/
def goodKey (k : String) : Bool :=
  !k.data.isEmpty && k.data.all (fun c => !(c == '.')) && !(k.data.all (fun c => c.isDigit))

/-! ## flatten_dict (`lib.py` lines 146-169) -/

mutual

/-- `flatten_dict(_dict, _str)`: flatten a nested dict into dot-path keys.
Dict values recurse with the extended prefix; list values keep their key and
flatten their dict elements in place; other values are stored as is. -/
def flatten_dict (d : Obj) (pre : String) : Obj :=
  flattenItems d pre []
termination_by (sizeOf d, 1)

/-- The `for k, v in _dict.items()` loop of `flatten_dict`, threading the
accumulated `ret_dict`. -/
def flattenItems : Obj → String → Obj → Obj
  | [], _, ret => ret
  | (k, JVal.obj m) :: rest, pre, ret =>
    flattenItems rest pre (dictUpdate ret (flatten_dict m (stripDots (pre ++ "." ++ k))))
  | (k, JVal.arr l) :: rest, pre, ret =>
    flattenItems rest pre (dset ret (stripDots (pre ++ "." ++ k)) (JVal.arr (flattenElems l)))
  | (k, v) :: rest, pre, ret =>
    flattenItems rest pre (dset ret (stripDots (pre ++ "." ++ k)) v)
termination_by d pre ret => (sizeOf d, 0)

/-- `[flatten_dict(item) if isinstance(item, dict) else item for item in v]`. -/
def flattenElems : List JVal → List JVal
  | [] => []
  | JVal.obj m :: rest => JVal.obj (flatten_dict m "") :: flattenElems rest
  | v :: rest => v :: flattenElems rest
termination_by l => (sizeOf l, 0)

end

/-! ## unflatten_dict (`lib.py` lines 172-199) -/

/-- The error raised by `_set_nested`: Python raises
`AttributeError("DataTypeAttributeError: %s at '%s'" % (e, full_path))`; the
embedding carries the full offending dot path `full_path` structurally. -/
inductive UnflattenError where
  | structureConflict (path : String)
deriving DecidableEq

/-- `_set_nested(d, path, value)`: walk/create intermediate dicts with
`setdefault` for all but the last segment and assign at the last segment.
`none` models the caught `AttributeError`/`TypeError` (an intermediate segment
already holds a non-dict value).  The empty path never arises from
`split(".")`. -/
def setNested (out : Obj) (path : List String) (v : JVal) : Option Obj :=
  match path with
  | [] => none
  | [last] => some (dset out last v)
  | seg :: rest =>
    match dget? out seg with
    | some (JVal.obj m) => (setNested m rest v).map (fun m2 => dset out seg (JVal.obj m2))
    | some _ => none
    | none => (setNested ([] : Obj) rest v).map (fun m2 => dset out seg (JVal.obj m2))

mutual

/-- The per-value step of `unflatten_dict`:
`v = [unflatten_dict(i2) if isinstance(i2, dict) else i2 for i2 in v]` for
list values, identity otherwise. -/
def unflattenVal : JVal → Except UnflattenError JVal
  | JVal.arr l => do
    let l2 ← unflattenElems l
    pure (JVal.arr l2)
  | v => pure v
termination_by v => (sizeOf v, 0)

/-- Elementwise unflatten of a list value's dict elements. -/
def unflattenElems : List JVal → Except UnflattenError (List JVal)
  | [] => pure []
  | JVal.obj fd :: rest => do
    let m ← unflatten_dict fd
    let r ← unflattenElems rest
    pure (JVal.obj m :: r)
  | v :: rest => do
    let r ← unflattenElems rest
    pure (v :: r)
termination_by l => (sizeOf l, 0)

/-- `unflatten_dict(flatten_dict)`: rebuild a nested dict from dot-path keys. -/
def unflatten_dict (fd : Obj) : Except UnflattenError Obj :=
  unflattenItems fd []
termination_by (sizeOf fd, 1)

/-- The `for k, v in flatten_dict.items()` loop of `unflatten_dict`. -/
def unflattenItems : Obj → Obj → Except UnflattenError Obj
  | [], out => pure out
  | (k, v) :: rest, out => do
    let v2 ← unflattenVal v
    match setNested out (splitDot k) v2 with
    | some out2 => unflattenItems rest out2
    | none => Except.error (UnflattenError.structureConflict k)
termination_by fd out => (sizeOf fd, 0)

end

/-- Lookup along a dot path into a nested dict (reference semantics used to
state that `setNested` assigns the value at the last segment). -/
def getPath (m : Obj) (path : List String) : Option JVal :=
  match path with
  | [] => none
  | [last] => dget? m last
  | seg :: rest =>
    match dget? m seg with
    | some (JVal.obj m2) => getPath m2 rest
    | _ => none

/-- The structure-conflict condition of claim C4: some intermediate segment of
the path already addresses an existing non-dict value (following existing dict
links; a missing segment is created fresh and never conflicts). -/
def hasNonObjIntermediate (out : Obj) (path : List String) : Bool :=
  match path with
  | [] => false
  | [_] => false
  | seg :: rest =>
    match dget? out seg with
    | some (JVal.obj m) => hasNonObjIntermediate m rest
    | some _ => true
    | none => false

/-! ## Infrastructure for the round-trip proof (claim C1) -/

/-- The leaf paths of a nested dict: the dot-free spine of `flatten_dict`.
Each entry is the list of segments leading to a non-dict value, paired with
that original value. -/
def pathsO : Obj → List (List String × JVal)
  | [] => []
  | (k, JVal.obj m) :: rest => ((pathsO m).map (fun pv => (k :: pv.1, pv.2))) ++ pathsO rest
  | (k, v) :: rest => ([k], v) :: pathsO rest

/-- The value stored by `flatten_dict` at a leaf: lists get their dict
elements flattened, everything else is unchanged. -/
def flatVal : JVal → JVal
  | JVal.arr l => JVal.arr (flattenElems l)
  | v => v

/-- Path-level version of the `unflatten_dict` loop (keys already split). -/
def foldSetU (out : Obj) : List (List String × JVal) → Except UnflattenError Obj
  | [] => pure out
  | (p, v) :: rest => do
    let v2 ← unflattenVal v
    match setNested out p v2 with
    | some out2 => foldSetU out2 rest
    | none => Except.error (UnflattenError.structureConflict (dotJoin p))

mutual

/-- Wellformedness of a value for the round-trip claim (claim C1 as amended):
every dict at every depth has `goodKey` keys, pairwise distinct keys, and no
empty dict stored as the value of a key. -/
def goodVal : JVal → Bool
  | JVal.obj m => goodObj m
  | JVal.arr l => goodElems l
  | _ => true
termination_by v => sizeOf v

/-- Wellformedness of a dict for the round-trip claim. -/
def goodObj : Obj → Bool
  | [] => true
  | (k, v) :: rest =>
    goodKey k && !(containsKey rest k) &&
      (match v with
       | JVal.obj m => !m.isEmpty
       | _ => true) &&
      goodVal v && goodObj rest
termination_by m => sizeOf m

/-- Wellformedness of list elements for the round-trip claim. -/
def goodElems : List JVal → Bool
  | [] => true
  | v :: rest => goodVal v && goodElems rest
termination_by l => sizeOf l

end

/-! ## dict_pick (`lib.py` lines 201-261) -/

/-- Errors of `dict_pick`: the `assert k in fd, "missing key '%s'" % k`
(carrying the missing key) and a propagated unflatten conflict. -/
inductive PickError where
  | missingKey (k : String)
  | structureConflict (path : String)
deriving DecidableEq

/-- The `for dk, dv in fd.items(): if dk.startswith(k + ".")` loop of
`_dict_pick_lookup_dict`. -/
def dotDescendants : Obj → String → List (String × JVal)
  | [], _ => []
  | (dk, dv) :: rest, k =>
    if (k ++ ".").isPrefixOf dk then (dk, dv) :: dotDescendants rest k
    else dotDescendants rest k

/-- `_dict_pick_lookup_dict(fd, k)`: the exact flattened entry when `k` is a
flattened key, otherwise every entry whose key starts with `k + "."`. -/
def dict_pick_lookup_dict (fd : Obj) (k : String) : List (String × JVal) :=
  match dget? fd k with
  | some v => [(k, v)]
  | none => dotDescendants fd k

/-- `_dict_pick_merge_l2d(iter)`: flatten the looked-up lists of pairs into
one dict, later assignments overwriting earlier ones. -/
def dict_pick_merge_l2d (ls : List (List (String × JVal))) : Obj :=
  ls.foldl (fun df u => u.foldl (fun df2 u2 => dset df2 u2.1 u2.2) df) []

/-- The `for k in keys: assert k in fd` loop of `dict_pick` (first missing
requested key, in order). -/
def firstMissing (fd : Obj) : List String → Option String
  | [] => none
  | k :: ks => if containsKey fd k then firstMissing fd ks else some k

/-- `dict_pick(ddict, keys, check_keys)`. -/
def dict_pick (ddict : Obj) (keys : List String) (check_keys : Bool) : Except PickError Obj :=
  let fd := flatten_dict ddict ""
  match (if check_keys then firstMissing fd keys else none) with
  | some k => Except.error (PickError.missingKey k)
  | none =>
    match unflatten_dict (dict_pick_merge_l2d (keys.map (fun k => dict_pick_lookup_dict fd k))) with
    | Except.ok u => Except.ok u
    | Except.error (UnflattenError.structureConflict p) =>
      Except.error (PickError.structureConflict p)

/-! ## dict_merge (`lib.py` lines 352-376) -/

/-- First-occurrence deduplication; determinizes the (hash-ordered) Python
`set` union of keys.  Claim C2 is stated key-set and per-key, so the chosen
order does not matter for it. -/
def dedupFirstAux (seen : List String) : List String → List String
  | [] => []
  | k :: rest =>
    if seen.contains k then dedupFirstAux seen rest
    else k :: dedupFirstAux (k :: seen) rest

/-- `keys = keys.union(set(d))` over all input dicts. -/
def unionKeys (ds : List Obj) : List String :=
  dedupFirstAux [] (ds.flatMap (fun d => d.map Prod.fst))

/-- `values = [d[key] for d in dicts if key in d]`. -/
def valuesOf : List Obj → String → List JVal
  | [], _ => []
  | d :: rest, k =>
    match dget? d k with
    | some v => v :: valuesOf rest k
    | none => valuesOf rest k

/-- `[value for value in values if isinstance(value, dict)]`. -/
def objPick : List JVal → List Obj
  | [] => []
  | JVal.obj m :: rest => m :: objPick rest
  | _ :: rest => objPick rest

/-- `maps = [value for value in values if isinstance(value, dict)]`. -/
def objsOf (ds : List Obj) (k : String) : List Obj :=
  objPick (valuesOf ds k)

/-- A looked-up dict value is strictly smaller than the dict holding it
(termination support for `dict_merge`). -/
def dget_sizeOf_lt : ∀ (d : Obj) (k : String) (v : JVal), dget? d k = some v → sizeOf v < sizeOf d := by
  intro d k v hv
  induction d with
  | nil => simp [dget?] at hv
  | cons hd tl ih =>
    obtain ⟨k', v'⟩ := hd
    rw [dget?] at hv
    by_cases hk : k' = k
    · rw [if_pos hk] at hv
      cases hv
      simp
      omega
    · rw [if_neg hk] at hv
      have := ih hv
      simp
      omega

/-- The kept dict values are no larger than the value list they come from
(termination support for `dict_merge`). -/
def objPick_sizeOf_le : ∀ (vs : List JVal), sizeOf (objPick vs) ≤ sizeOf vs := by
  intro vs
  induction vs with
  | nil => simp [objPick]
  | cons v tl ih =>
    cases v <;> simp [objPick] <;> omega

/-- When at least one dict value is kept, the kept list is strictly smaller
(termination support for `dict_merge`). -/
def objPick_sizeOf_lt : ∀ (vs : List JVal), objPick vs ≠ [] → sizeOf (objPick vs) < sizeOf vs := by
  intro vs hne
  induction vs with
  | nil => simp [objPick] at hne
  | cons v tl ih =>
    cases v with
    | obj m =>
      have := objPick_sizeOf_le tl
      simp [objPick]
      omega
    | null =>
      simp only [objPick] at hne ⊢
      have := ih hne
      simp
      omega
    | bool b =>
      simp only [objPick] at hne ⊢
      have := ih hne
      simp
      omega
    | int n =>
      simp only [objPick] at hne ⊢
      have := ih hne
      simp
      omega
    | str s =>
      simp only [objPick] at hne ⊢
      have := ih hne
      simp
      omega
    | date a b =>
      simp only [objPick] at hne ⊢
      have := ih hne
      simp
      omega
    | arr l =>
      simp only [objPick] at hne ⊢
      have := ih hne
      simp
      omega

/-- The extracted value list is no larger than the input dict list
(termination support for `dict_merge`). -/
def valuesOf_sizeOf_le : ∀ (ds : List Obj) (k : String), sizeOf (valuesOf ds k) ≤ sizeOf ds := by
  intro ds k
  induction ds with
  | nil => simp [valuesOf]
  | cons d tl ih =>
    cases hv : dget? d k with
    | none =>
      rw [valuesOf, hv]
      simp
      omega
    | some v =>
      have := dget_sizeOf_lt d k v hv
      rw [valuesOf, hv]
      simp
      omega

mutual

/-- `dict_merge(*dicts)`: union of keys; per key, recursively merge the
dict-valued occurrences if any exist, else take the last occurrence. -/
def dict_merge (ds : List Obj) : Obj :=
  mergeKeys ds (unionKeys ds)
termination_by (sizeOf ds, 1, 0)
decreasing_by
  exact Prod.Lex.right _ (Prod.Lex.left _ _ (Nat.lt_succ_self 0))

/-- The `for key in keys` loop of `dict_merge` (`if maps:` is the
non-emptiness test on the dict-valued occurrences). -/
def mergeKeys (ds : List Obj) : List String → Obj
  | [] => []
  | k :: ks =>
    (if h : (objsOf ds k).isEmpty = false then (k, JVal.obj (dict_merge (objsOf ds k)))
     else (k, (valuesOf ds k).getLastD JVal.null)) :: mergeKeys ds ks
termination_by ks => (sizeOf ds, 0, ks.length)
decreasing_by
  · apply Prod.Lex.left
    have hne : objsOf ds k ≠ [] := by
      intro hnil
      rw [hnil] at h
      simp at h
    have h1 : sizeOf (objsOf ds k) < sizeOf (valuesOf ds k) := objPick_sizeOf_lt _ hne
    have h2 : sizeOf (valuesOf ds k) ≤ sizeOf ds := valuesOf_sizeOf_le ds k
    omega
  · exact Prod.Lex.right _ (Prod.Lex.right _ (Nat.lt_succ_self _))

end

/-! ## keyname_valid and dict_inspect_valid_keyname (`lib.py` lines 30-46, 405-421) -/

/-- First-character class of the key-name pattern: `[a-zA-Z_$]`. -/
def keyHeadOK (c : Char) : Bool :=
  c.isAlpha || c == '_' || c == '$'

/-- Tail-character class of the key-name pattern: `[a-zA-Z0-9_\-$]`. -/
def keyTailOK (c : Char) : Bool :=
  c.isAlphanum || c == '_' || c == '-' || c == '$'

/-- `keyname_valid(name)`: `bool(re.match(r"^[a-zA-Z\_\$][a-zA-Z0-9\_\-\$]*$", name))`
for a non-empty string.  Python `re`'s `$` (without `re.MULTILINE`) matches at
the end of the string or just before one newline at the end of the string, so
the pattern also accepts a key consisting of a valid head, valid tail
characters, and one trailing `'\n'`. -/
def keyname_valid (name : String) : Bool :=
  match name.data with
  | [] => false
  | c :: rest =>
    keyHeadOK c &&
      (rest.all keyTailOK ||
        (!rest.isEmpty && rest.getLast? == some '\n' && rest.dropLast.all keyTailOK))

/-- The grammar of the specification read as an exact full-string match
`^[A-Za-z_$][A-Za-z0-9_\-$]*$` (no trailing-newline tolerance); used to compare
the claim's wording with the code's `keyname_valid`. -/
def grammarFullMatch (s : String) : Bool :=
  match s.data with
  | [] => false
  | c :: rest => keyHeadOK c && rest.all keyTailOK

mutual

/-- Reference predicate for claim C8: every key at every depth is
`keyname_valid`, descending into dict values and into dict elements of list
values (the traversal of `dict_inspect_valid_keyname`). -/
def allKeysValid : Obj → Bool
  | [] => true
  | (k, v) :: rest => keyname_valid k && allKeysValidVal v && allKeysValid rest
termination_by m => sizeOf m

/-- Descend into a value for `allKeysValid`. -/
def allKeysValidVal : JVal → Bool
  | JVal.obj m => allKeysValid m
  | JVal.arr l => allKeysValidElems l
  | _ => true
termination_by v => sizeOf v

/-- Dict elements of a list value for `allKeysValid`. -/
def allKeysValidElems : List JVal → Bool
  | [] => true
  | JVal.obj m :: rest => allKeysValid m && allKeysValidElems rest
  | _ :: rest => allKeysValidElems rest
termination_by l => sizeOf l

end

mutual

/-- `k` occurs as a dict key somewhere in `d`, along the traversal of
`dict_inspect_valid_keyname`. -/
def keyAtDepth : Obj → String → Bool
  | [], _ => false
  | (k', v) :: rest, k => k' == k || keyAtDepthVal v k || keyAtDepth rest k
termination_by m k => sizeOf m

/-- Descend into a value for `keyAtDepth`. -/
def keyAtDepthVal : JVal → String → Bool
  | JVal.obj m, k => keyAtDepth m k
  | JVal.arr l, k => keyAtDepthElems l k
  | _, _ => false
termination_by v k => sizeOf v

/-- Dict elements of a list value for `keyAtDepth`. -/
def keyAtDepthElems : List JVal → String → Bool
  | [], _ => false
  | JVal.obj m :: rest, k => keyAtDepth m k || keyAtDepthElems rest k
  | _ :: rest, k => keyAtDepthElems rest k
termination_by l k => sizeOf l

end

mutual

/-- `dict_inspect_valid_keyname(obj)`: recursively inspect all keys; raises
`NameError("INVALID_DATA_KEY_ERROR:%s" % k)` on an invalid key (children are
inspected before the key itself is checked), returns `True` otherwise. -/
def dict_inspect_valid_keyname (d : Obj) : Except String Bool :=
  inspectItems d
termination_by (sizeOf d, 1)

/-- The `for k, v in obj.items()` loop of `dict_inspect_valid_keyname`. -/
def inspectItems : Obj → Except String Bool
  | [] => Except.ok true
  | (k, v) :: rest => do
    let _ ← (match v with
      | JVal.obj m => do
        let _ ← dict_inspect_valid_keyname m
        pure true
      | JVal.arr l => do
        let _ ← inspectElems l
        pure true
      | _ => pure true)
    if keyname_valid k = false then Except.error ("INVALID_DATA_KEY_ERROR:" ++ k)
    else inspectItems rest
termination_by d => (sizeOf d, 0)

/-- The `for l in v: if isinstance(l, dict)` loop of
`dict_inspect_valid_keyname`. -/
def inspectElems : List JVal → Except String Bool
  | [] => Except.ok true
  | JVal.obj m :: rest => do
    let _ ← dict_inspect_valid_keyname m
    inspectElems rest
  | _ :: rest => inspectElems rest
termination_by l => (sizeOf l, 0)

end

/-! ## json_ext (`lib.py` lines 92-140)

The JSON text layer (`json.dumps`/`json.loads` of the standard library) is
treated as the identity on parsed trees; what is embedded is the repository's
hooks: `default=cls._serialize` (dates rendered as ISO strings everywhere) and
`object_hook=cls._deserialize` (string values of dicts promoted back when they
parse as timestamps).  The `arrow`/`datetime` formatting and parsing functions
are external libraries and appear as an abstract `TimeCodec`. -/

/-- Abstraction of `arrow.Arrow.for_json` / `datetime.isoformat` (fmt) and of
`datetime.fromisoformat` + `arrow.get` (parse; `none` models parse failure,
the `except` of `_timestamp_valid`). -/
structure TimeCodec where
  fmt : Int → Int → String
  parse : String → Option (Int × Int)

/-- The `object_hook` body `_deserialize` applied to one dict value: a string
that parses as a timestamp becomes a rich date value. -/
def promote (c : TimeCodec) (v : JVal) : JVal :=
  match v with
  | JVal.str s =>
    match c.parse s with
    | some (e, o) => JVal.date e o
    | none => JVal.str s
  | v => v

mutual

/-- `json_ext.dumps` at tree level: `default=_serialize` renders every rich
date value (at any position) as its formatted string. -/
def json_dumps_tree (c : TimeCodec) : JVal → JVal
  | JVal.date e o => JVal.str (c.fmt e o)
  | JVal.obj m => JVal.obj (dumpsEntries c m)
  | JVal.arr l => JVal.arr (dumpsElems c l)
  | v => v
termination_by v => sizeOf v

/-- Entries of a dict under `json_dumps_tree`. -/
def dumpsEntries (c : TimeCodec) : Obj → Obj
  | [] => []
  | (k, v) :: rest => (k, json_dumps_tree c v) :: dumpsEntries c rest
termination_by m => sizeOf m

/-- Elements of a list under `json_dumps_tree`. -/
def dumpsElems (c : TimeCodec) : List JVal → List JVal
  | [] => []
  | v :: rest => json_dumps_tree c v :: dumpsElems c rest
termination_by l => sizeOf l

end

mutual

/-- `json_ext.loads` at tree level: `object_hook=_deserialize` runs on every
decoded dict and promotes its string values that parse as timestamps.  String
leaves elsewhere (list elements, the top level) are not promoted. -/
def json_loads_tree (c : TimeCodec) : JVal → JVal
  | JVal.obj m => JVal.obj (loadsEntries c m)
  | JVal.arr l => JVal.arr (loadsElems c l)
  | v => v
termination_by v => sizeOf v

/-- Entries of a dict under `json_loads_tree` (hook applied to each value). -/
def loadsEntries (c : TimeCodec) : Obj → Obj
  | [] => []
  | (k, v) :: rest => (k, promote c (json_loads_tree c v)) :: loadsEntries c rest
termination_by m => sizeOf m

/-- Elements of a list under `json_loads_tree` (no promotion at this level). -/
def loadsElems (c : TimeCodec) : List JVal → List JVal
  | [] => []
  | v :: rest => json_loads_tree c v :: loadsElems c rest
termination_by l => sizeOf l

end

/-- A concrete satisfiable codec used for closed witnesses and
counterexamples. -/
def demoCodec : TimeCodec :=
  { fmt := fun _ _ => "X"
    parse := fun s => if s == "X" then some (0, 0) else none }

/-- Whether a value is a rich date/time value. -/
def isDate : JVal → Bool
  | JVal.date _ _ => true
  | _ => false

/-! ## Result and Client.request (`client.py` lines 11-275) -/

/-- The keyword arguments of `Result.__init__` as used by the client (`none`
models an absent key). -/
structure ResultKw where
  data : Option JVal
  meta : Option JVal
  ok : Option Bool
  error : Option JVal
  status_code : Option Int

/-- The `Result` object. -/
structure Result where
  data : JVal
  meta : JVal
  ok : Bool
  error : Option JVal
  status_code : Int

/-- `Result.__init__`: `data`/`meta` default to `{}` on absent or falsy input,
`error` to `None`, `status_code` to `200`; `ok` is taken verbatim when the key
is present and defaults to `True` otherwise. -/
def mkResult (kw : ResultKw) : Result :=
  { data := match kw.data with
      | some v => if truthy v then v else JVal.obj []
      | none => JVal.obj []
    meta := match kw.meta with
      | some v => if truthy v then v else JVal.obj []
      | none => JVal.obj []
    ok := match kw.ok with
      | some b => b
      | none => true
    error := match kw.error with
      | some v => if truthy v then some v else none
      | none => none
    status_code := match kw.status_code with
      | some n => if n ≠ 0 then n else 200
      | none => 200 }

/-- The result of `lib.json_loads(r.text)` inside `Client.request`:
a parsed JSON tree, `empty` for a falsy body (`json_loads` returns `None`),
or `invalid` when `json.loads` raises. -/
inductive HttpBody where
  | json (v : JVal)
  | empty
  | invalid

/-- One HTTP round trip as seen by `Client.request`: a response with a status
code and body text, or a raised transport exception with message `msg`. -/
inductive HttpOutcome where
  | resp (status : Int) (body : HttpBody)
  | exn (msg : String)

/-- Abstract text of the Python exception raised when `resp.get` is called on
a non-dict (`AttributeError`) or when the body fails to parse
(`JSONDecodeError`); the concrete interpolated text is irrelevant to the
claims, which only constrain the `"EXCEPTION: "` prefix. -/
def pyExnText : HttpBody → String
  | HttpBody.json _ => "AttributeError"
  | HttpBody.empty => "AttributeError"
  | HttpBody.invalid => "JSONDecodeError"

/-- `Client.request(payload)` against a given HTTP outcome.  Returns the
`Result` and whether the network POST was issued.  The `try`/`except` makes
the function total: the missing-action `SinglebaseError` and every later
exception are converted to a failure `Result`. -/
def clientRequest (payload : Obj) (outcome : HttpOutcome) : Result × Bool :=
  if containsKey payload "action" = false then
    (mkResult { data := none, meta := none, ok := some false,
                error := some (JVal.str "EXCEPTION: Request missing @action"),
                status_code := some 500 }, false)
  else
    match outcome with
    | HttpOutcome.exn msg =>
      (mkResult { data := none, meta := none, ok := some false,
                  error := some (JVal.str ("EXCEPTION: " ++ msg)),
                  status_code := some 500 }, true)
    | HttpOutcome.resp status body =>
      match body with
      | HttpBody.json (JVal.obj m) =>
        if status = 200 then
          (mkResult { data := dget? m "data", meta := dget? m "meta", ok := some true,
                      error := none, status_code := some 200 }, true)
        else
          (mkResult { data := none, meta := none, ok := some false,
                      error := dget? m "error", status_code := some status }, true)
      | b =>
        (mkResult { data := none, meta := none, ok := some false,
                    error := some (JVal.str ("EXCEPTION: " ++ pyExnText b)),
                    status_code := some 500 }, true)

/-- `Client.request_async(payload)`: identical payload check and
response-normalization logic as `Client.request` (the `aiohttp` session
handling does not affect the produced `Result`). -/
def clientRequestAsync (payload : Obj) (outcome : HttpOutcome) : Result × Bool :=
  if containsKey payload "action" = false then
    (mkResult { data := none, meta := none, ok := some false,
                error := some (JVal.str "EXCEPTION: Request missing @action"),
                status_code := some 500 }, false)
  else
    match outcome with
    | HttpOutcome.exn msg =>
      (mkResult { data := none, meta := none, ok := some false,
                  error := some (JVal.str ("EXCEPTION: " ++ msg)),
                  status_code := some 500 }, true)
    | HttpOutcome.resp status body =>
      match body with
      | HttpBody.json (JVal.obj m) =>
        if status = 200 then
          (mkResult { data := dget? m "data", meta := dget? m "meta", ok := some true,
                      error := none, status_code := some 200 }, true)
        else
          (mkResult { data := none, meta := none, ok := some false,
                      error := dget? m "error", status_code := some status }, true)
      | b =>
        (mkResult { data := none, meta := none, ok := some false,
                    error := some (JVal.str ("EXCEPTION: " ++ pyExnText b)),
                    status_code := some 500 }, true)

/-! # Theorems -/

/-! ## Shared auxiliary lemmas -/

@[simp] theorem except_bind_ok {ε α β : Type} (a : α) (f : α → Except ε β) :
    (Except.ok a >>= f : Except ε β) = f a := rfl

@[simp] theorem except_bind_error {ε α β : Type} (e : ε) (f : α → Except ε β) :
    (Except.error e >>= f : Except ε β) = Except.error e := rfl

@[simp] theorem except_pure_eq {ε α : Type} (a : α) :
    (pure a : Except ε α) = Except.ok a := rfl

theorem exceptionPrefixNeEmpty (msg : String) : ¬("EXCEPTION: " ++ msg) = "" := by
  intro h
  have h2 := congrArg String.data h
  obtain ⟨l⟩ := msg
  simp [String.data] at h2

/-! ## Claim C10: Result constructor normalization -/

/-- C10: the `Result` constructor normalizes its fields: `data` and `meta`
that are absent or falsy become empty mappings; `error` that is absent or
falsy (including the empty string) becomes null; `status_code` that is absent
or falsy (including 0) becomes 200; `ok` defaults to true exactly when the
key is absent; and in particular a failure `Result` built by
`Client.request` from a non-200 response whose body has no `error` field has
`error = none` even though `ok = false`. -/
theorem c10_result_normalization :
    (∀ kw : ResultKw, kw.data = none → (mkResult kw).data = JVal.obj []) ∧
    (∀ kw : ResultKw, ∀ v, kw.data = some v → truthy v = false → (mkResult kw).data = JVal.obj []) ∧
    (∀ kw : ResultKw, ∀ v, kw.data = some v → truthy v = true → (mkResult kw).data = v) ∧
    (∀ kw : ResultKw, kw.meta = none → (mkResult kw).meta = JVal.obj []) ∧
    (∀ kw : ResultKw, ∀ v, kw.meta = some v → truthy v = false → (mkResult kw).meta = JVal.obj []) ∧
    (∀ kw : ResultKw, ∀ v, kw.meta = some v → truthy v = true → (mkResult kw).meta = v) ∧
    (∀ kw : ResultKw, kw.error = none → (mkResult kw).error = none) ∧
    (∀ kw : ResultKw, ∀ v, kw.error = some v → truthy v = false → (mkResult kw).error = none) ∧
    (∀ kw : ResultKw, kw.error = some (JVal.str "") → (mkResult kw).error = none) ∧
    (∀ kw : ResultKw, ∀ v, kw.error = some v → truthy v = true → (mkResult kw).error = some v) ∧
    (∀ kw : ResultKw, kw.status_code = none ∨ kw.status_code = some 0 →
      (mkResult kw).status_code = 200) ∧
    (∀ kw : ResultKw, ∀ n, kw.status_code = some n → n ≠ 0 → (mkResult kw).status_code = n) ∧
    (∀ kw : ResultKw, kw.ok = none → (mkResult kw).ok = true) ∧
    (∀ kw : ResultKw, ∀ b, kw.ok = some b → (mkResult kw).ok = b) ∧
    (∀ (payload : Obj) (st : Int) (m : Obj), containsKey payload "action" = true → st ≠ 200 →
      dget? m "error" = none →
      (clientRequest payload (HttpOutcome.resp st (HttpBody.json (JVal.obj m)))).1.error = none ∧
      (clientRequest payload (HttpOutcome.resp st (HttpBody.json (JVal.obj m)))).1.ok = false) := by
  refine ⟨?_, ?_, ?_, ?_, ?_, ?_, ?_, ?_, ?_, ?_, ?_, ?_, ?_, ?_, ?_⟩
  · intro kw h
    simp [mkResult, h]
  · intro kw v h ht
    simp [mkResult, h, ht]
  · intro kw v h ht
    simp [mkResult, h, ht]
  · intro kw h
    simp [mkResult, h]
  · intro kw v h ht
    simp [mkResult, h, ht]
  · intro kw v h ht
    simp [mkResult, h, ht]
  · intro kw h
    simp [mkResult, h]
  · intro kw v h ht
    simp [mkResult, h, ht]
  · intro kw h
    simp [mkResult, h, truthy]
  · intro kw v h ht
    simp [mkResult, h, ht]
  · intro kw h
    rcases h with h | h <;> simp [mkResult, h]
  · intro kw n h hn
    simp [mkResult, h, hn]
  · intro kw h
    simp [mkResult, h]
  · intro kw b h
    simp [mkResult, h]
  · intro payload st m hp hst he
    simp [clientRequest, hp, hst, mkResult, he]

/-- Closed witness for C10 at concrete inputs. -/
theorem c10_result_normalization_witness :
    (mkResult { data := none, meta := none, ok := none,
                error := some (JVal.str ""), status_code := some 0 }).error = none ∧
    (mkResult { data := none, meta := none, ok := none,
                error := some (JVal.str ""), status_code := some 0 }).status_code = 200 ∧
    (mkResult { data := none, meta := none, ok := none,
                error := some (JVal.str ""), status_code := some 0 }).ok = true ∧
    (clientRequest [("action", JVal.str "db.fetch")]
        (HttpOutcome.resp 404 (HttpBody.json (JVal.obj [("x", JVal.int 1)])))).1.error = none ∧
    (clientRequest [("action", JVal.str "db.fetch")]
        (HttpOutcome.resp 404 (HttpBody.json (JVal.obj [("x", JVal.int 1)])))).1.ok = false := by
  have h := c10_result_normalization
  refine ⟨h.2.2.2.2.2.2.2.2.1 _ rfl, h.2.2.2.2.2.2.2.2.2.2.1 _ (Or.inr rfl), ?_, ?_, ?_⟩
  · exact h.2.2.2.2.2.2.2.2.2.2.2.2.1 _ rfl
  · exact (h.2.2.2.2.2.2.2.2.2.2.2.2.2.2 [("action", JVal.str "db.fetch")] 404
      [("x", JVal.int 1)] rfl (by decide) rfl).1
  · exact (h.2.2.2.2.2.2.2.2.2.2.2.2.2.2 [("action", JVal.str "db.fetch")] 404
      [("x", JVal.int 1)] rfl (by decide) rfl).2

/-! ## Claim C5 (corrected): dispatch outcome normalization -/

/-- C5 counterexample: the claim as stated is false.  A 200 response whose
body does not parse as a JSON object takes the exception path and yields
`ok = false` (the claim says every status-200 outcome yields `ok = true`),
and a response with status code 0 (a falsy status) yields `status_code = 200`
rather than that status code. -/
theorem c5_counterexample :
    (clientRequest [("action", JVal.str "db.fetch")]
        (HttpOutcome.resp 200 HttpBody.invalid)).1.ok = false ∧
    (clientRequest [("action", JVal.str "db.fetch")]
        (HttpOutcome.resp 0 (HttpBody.json (JVal.obj [])))).1.status_code = 200 := by
  constructor
  · simp [clientRequest, containsKey, dget?, mkResult, pyExnText]
  · simp [clientRequest, containsKey, dget?, mkResult]

/-- C5 as amended: for every payload carrying an `action` key,
`Client.request` is a total function of the HTTP outcome (it never raises) and
normalizes it as follows.  A 200 response whose body parses as a JSON object
yields `ok = true`, `status_code = 200`, and `data`/`meta` taken from the body
(normalized by the `Result` constructor); a response with any other non-zero
status code and an object body yields `ok = false`, that status code, and the
body's `error` value (normalized: absent or falsy becomes null); a transport
exception yields `ok = false`, `status_code = 500` and an error string with
the `"EXCEPTION: "` prefix; a body that is empty, unparseable, or not a JSON
object also takes the exception path: `ok = false`, `status_code = 500`, and
an `"EXCEPTION: "`-prefixed error string. -/
theorem c5_dispatch_normalization :
    (∀ (payload : Obj) (m : Obj), containsKey payload "action" = true →
      (clientRequest payload (HttpOutcome.resp 200 (HttpBody.json (JVal.obj m)))).1.ok = true ∧
      (clientRequest payload (HttpOutcome.resp 200 (HttpBody.json (JVal.obj m)))).1.status_code = 200 ∧
      (clientRequest payload (HttpOutcome.resp 200 (HttpBody.json (JVal.obj m)))).1.data =
        (match dget? m "data" with
         | some v => if truthy v then v else JVal.obj []
         | none => JVal.obj []) ∧
      (clientRequest payload (HttpOutcome.resp 200 (HttpBody.json (JVal.obj m)))).1.meta =
        (match dget? m "meta" with
         | some v => if truthy v then v else JVal.obj []
         | none => JVal.obj [])) ∧
    (∀ (payload : Obj) (st : Int) (m : Obj), containsKey payload "action" = true →
      st ≠ 200 → st ≠ 0 →
      (clientRequest payload (HttpOutcome.resp st (HttpBody.json (JVal.obj m)))).1.ok = false ∧
      (clientRequest payload (HttpOutcome.resp st (HttpBody.json (JVal.obj m)))).1.status_code = st ∧
      (clientRequest payload (HttpOutcome.resp st (HttpBody.json (JVal.obj m)))).1.error =
        (match dget? m "error" with
         | some v => if truthy v then some v else none
         | none => none)) ∧
    (∀ (payload : Obj) (msg : String), containsKey payload "action" = true →
      (clientRequest payload (HttpOutcome.exn msg)).1.ok = false ∧
      (clientRequest payload (HttpOutcome.exn msg)).1.status_code = 500 ∧
      (clientRequest payload (HttpOutcome.exn msg)).1.error =
        some (JVal.str ("EXCEPTION: " ++ msg))) ∧
    (∀ (payload : Obj) (st : Int) (b : HttpBody), containsKey payload "action" = true →
      (∀ m : Obj, b ≠ HttpBody.json (JVal.obj m)) →
      (clientRequest payload (HttpOutcome.resp st b)).1.ok = false ∧
      (clientRequest payload (HttpOutcome.resp st b)).1.status_code = 500 ∧
      (clientRequest payload (HttpOutcome.resp st b)).1.error =
        some (JVal.str ("EXCEPTION: " ++ pyExnText b))) := by
  refine ⟨?_, ?_, ?_, ?_⟩
  · intro payload m hp
    refine ⟨?_, ?_, ?_, ?_⟩ <;> simp [clientRequest, hp, mkResult]
  · intro payload st m hp hst hz
    refine ⟨?_, ?_, ?_⟩ <;> simp [clientRequest, hp, hst, hz, mkResult]
  · intro payload msg hp
    have hne := exceptionPrefixNeEmpty msg
    refine ⟨?_, ?_, ?_⟩ <;> simp [clientRequest, hp, mkResult, truthy, hne]
  · intro payload st b hp hb
    cases b with
    | json v =>
      cases v with
      | obj m => exact absurd rfl (hb m)
      | null => refine ⟨?_, ?_, ?_⟩ <;> simp [clientRequest, hp, mkResult, truthy, pyExnText]
      | bool x => refine ⟨?_, ?_, ?_⟩ <;> simp [clientRequest, hp, mkResult, truthy, pyExnText]
      | int n => refine ⟨?_, ?_, ?_⟩ <;> simp [clientRequest, hp, mkResult, truthy, pyExnText]
      | str s => refine ⟨?_, ?_, ?_⟩ <;> simp [clientRequest, hp, mkResult, truthy, pyExnText]
      | date a o => refine ⟨?_, ?_, ?_⟩ <;> simp [clientRequest, hp, mkResult, truthy, pyExnText]
      | arr l => refine ⟨?_, ?_, ?_⟩ <;> simp [clientRequest, hp, mkResult, truthy, pyExnText]
    | empty => refine ⟨?_, ?_, ?_⟩ <;> simp [clientRequest, hp, mkResult, truthy, pyExnText]
    | invalid => refine ⟨?_, ?_, ?_⟩ <;> simp [clientRequest, hp, mkResult, truthy, pyExnText]

/-- Closed witness for C5: the simulated 200 response with body
`{"data": {"id": 1}, "meta": {}}` yields a success result with that data, and
the simulated 404 with body `{"error": "not found"}` yields a failure result
with status 404 and that error. -/
theorem c5_dispatch_normalization_witness :
    (clientRequest [("action", JVal.str "db.fetch")]
        (HttpOutcome.resp 200 (HttpBody.json
          (JVal.obj [("data", JVal.obj [("id", JVal.int 1)]), ("meta", JVal.obj [])])))).1.ok
      = true ∧
    (clientRequest [("action", JVal.str "db.fetch")]
        (HttpOutcome.resp 200 (HttpBody.json
          (JVal.obj [("data", JVal.obj [("id", JVal.int 1)]), ("meta", JVal.obj [])])))).1.data
      = JVal.obj [("id", JVal.int 1)] ∧
    (clientRequest [("action", JVal.str "db.fetch")]
        (HttpOutcome.resp 404 (HttpBody.json
          (JVal.obj [("error", JVal.str "not found")])))).1.ok = false ∧
    (clientRequest [("action", JVal.str "db.fetch")]
        (HttpOutcome.resp 404 (HttpBody.json
          (JVal.obj [("error", JVal.str "not found")])))).1.status_code = 404 ∧
    (clientRequest [("action", JVal.str "db.fetch")]
        (HttpOutcome.resp 404 (HttpBody.json
          (JVal.obj [("error", JVal.str "not found")])))).1.error
      = some (JVal.str "not found") := by
  have h1 := (c5_dispatch_normalization.1 [("action", JVal.str "db.fetch")]
    [("data", JVal.obj [("id", JVal.int 1)]), ("meta", JVal.obj [])] rfl)
  have h2 := (c5_dispatch_normalization.2.1 [("action", JVal.str "db.fetch")] 404
    [("error", JVal.str "not found")] rfl (by decide) (by decide))
  refine ⟨h1.1, ?_, h2.1, h2.2.1, ?_⟩
  · rw [h1.2.2.1]
    rfl
  · rw [h2.2.2]
    rfl

/-! ## Claim C6: missing action fails before any network call -/

/-- C6: dispatching a payload without an `"action"` key via `Client.request`
or `Client.request_async` produces the missing-action failure result without
the HTTP POST being issued: the result does not depend on the HTTP outcome,
the network flag is false, and the result is the failure carrying the
`"EXCEPTION: Request missing @action"` error. -/
theorem c6_missing_action_no_network :
    ∀ (payload : Obj) (outcome1 outcome2 : HttpOutcome),
      containsKey payload "action" = false →
      clientRequest payload outcome1 = clientRequest payload outcome2 ∧
      (clientRequest payload outcome1).2 = false ∧
      (clientRequest payload outcome1).1.ok = false ∧
      (clientRequest payload outcome1).1.status_code = 500 ∧
      (clientRequest payload outcome1).1.error =
        some (JVal.str "EXCEPTION: Request missing @action") ∧
      clientRequestAsync payload outcome1 = clientRequestAsync payload outcome2 ∧
      (clientRequestAsync payload outcome1).2 = false ∧
      (clientRequestAsync payload outcome1).1.ok = false ∧
      (clientRequestAsync payload outcome1).1.status_code = 500 ∧
      (clientRequestAsync payload outcome1).1.error =
        some (JVal.str "EXCEPTION: Request missing @action") := by
  intro payload outcome1 outcome2 hp
  refine ⟨?_, ?_, ?_, ?_, ?_, ?_, ?_, ?_, ?_, ?_⟩ <;>
    simp [clientRequest, clientRequestAsync, hp, mkResult, truthy]

/-- Closed witness for C6 at a concrete actionless payload. -/
theorem c6_missing_action_no_network_witness :
    (clientRequest [("collection", JVal.str "users")]
      (HttpOutcome.resp 200 (HttpBody.json (JVal.obj [])))).2 = false ∧
    (clientRequest [("collection", JVal.str "users")]
      (HttpOutcome.resp 200 (HttpBody.json (JVal.obj [])))).1.error =
        some (JVal.str "EXCEPTION: Request missing @action") ∧
    (clientRequestAsync [("collection", JVal.str "users")]
      (HttpOutcome.resp 200 (HttpBody.json (JVal.obj [])))).2 = false := by
  have h := c6_missing_action_no_network [("collection", JVal.str "users")]
    (HttpOutcome.resp 200 (HttpBody.json (JVal.obj [])))
    (HttpOutcome.resp 200 (HttpBody.json (JVal.obj []))) rfl
  exact ⟨h.2.1, h.2.2.2.2.1, h.2.2.2.2.2.2.1⟩

/-! ## Claim C2: dict_merge -/

theorem containsKey_iff_mem_keys (d : Obj) (k : String) :
    containsKey d k = true ↔ k ∈ d.map Prod.fst := by
  induction d with
  | nil => simp [containsKey, dget?]
  | cons hd tl ih =>
    obtain ⟨k', v'⟩ := hd
    by_cases hk : k' = k
    · subst hk
      simp [containsKey, dget?]
    · simp [containsKey, dget?, hk] at ih ⊢
      rw [ih]
      simp [Ne.symm hk]

theorem mem_dedupFirstAux (l : List String) :
    ∀ (seen : List String) (k : String),
      k ∈ dedupFirstAux seen l ↔ (k ∈ l ∧ ¬k ∈ seen) := by
  induction l with
  | nil => intro seen k; simp [dedupFirstAux]
  | cons k' rest ih =>
    intro seen k
    by_cases hc : seen.contains k' = true
    · rw [dedupFirstAux, if_pos hc, ih]
      have hk' : k' ∈ seen := List.mem_of_elem_eq_true hc
      constructor
      · rintro ⟨h1, h2⟩
        exact ⟨List.mem_cons_of_mem _ h1, h2⟩
      · rintro ⟨h1, h2⟩
        rcases List.mem_cons.mp h1 with h | h
        · subst h
          exact absurd hk' h2
        · exact ⟨h, h2⟩
    · rw [dedupFirstAux, if_neg hc]
      have hk' : ¬k' ∈ seen := by
        intro hmem
        exact hc (List.elem_eq_true_of_mem hmem)
      by_cases he : k = k'
      · subst he
        simp [hk']
      · simp only [List.mem_cons, he, false_or]
        rw [ih]
        simp [he, Ne.symm he]

theorem nodup_dedupFirstAux (l : List String) :
    ∀ seen : List String, (dedupFirstAux seen l).Nodup := by
  induction l with
  | nil => intro seen; simp [dedupFirstAux]
  | cons k' rest ih =>
    intro seen
    by_cases hc : seen.contains k' = true
    · rw [dedupFirstAux, if_pos hc]
      exact ih seen
    · rw [dedupFirstAux, if_neg hc]
      refine List.Nodup.cons ?_ (ih (k' :: seen))
      intro hmem
      have := (mem_dedupFirstAux rest (k' :: seen) k').mp hmem
      simp at this

theorem nodup_unionKeys (ds : List Obj) : (unionKeys ds).Nodup :=
  nodup_dedupFirstAux _ []

theorem mem_unionKeys (ds : List Obj) (k : String) :
    k ∈ unionKeys ds ↔ ∃ d ∈ ds, containsKey d k = true := by
  rw [unionKeys, mem_dedupFirstAux]
  simp only [List.not_mem_nil, not_false_iff, and_true, List.mem_flatMap]
  constructor
  · rintro ⟨d, hd, hk⟩
    exact ⟨d, hd, (containsKey_iff_mem_keys d k).mpr hk⟩
  · rintro ⟨d, hd, hk⟩
    exact ⟨d, hd, (containsKey_iff_mem_keys d k).mp hk⟩

theorem valuesOf_eq_nil_iff (ds : List Obj) (k : String) :
    valuesOf ds k = [] ↔ ∀ d ∈ ds, containsKey d k = false := by
  induction ds with
  | nil => simp [valuesOf]
  | cons d tl ih =>
    cases hv : dget? d k with
    | some v =>
      rw [valuesOf, hv]
      simp only [List.mem_cons]
      constructor
      · intro h
        exact absurd h (List.cons_ne_nil _ _)
      · intro h
        have := h d (Or.inl rfl)
        rw [containsKey, hv] at this
        simp at this
    | none =>
      rw [valuesOf, hv]
      rw [ih]
      constructor
      · intro h d' hd'
        rcases List.mem_cons.mp hd' with h' | h'
        · subst h'
          rw [containsKey, hv]
          rfl
        · exact h d' h'
      · intro h d' hd'
        exact h d' (List.mem_cons_of_mem _ hd')

theorem objsOf_sub_valuesOf (ds : List Obj) (k : String) :
    objsOf ds k ≠ [] → valuesOf ds k ≠ [] := by
  intro h hnil
  rw [objsOf, hnil] at h
  simp [objPick] at h

theorem dget?_mergeKeys_of_not_mem (ds : List Obj) (ks : List String) (k : String)
    (hk : ¬k ∈ ks) : dget? (mergeKeys ds ks) k = none := by
  induction ks with
  | nil => simp [mergeKeys, dget?]
  | cons k' rest ih =>
    have hne : k' ≠ k := by
      intro he
      exact hk (he ▸ List.mem_cons_self k' rest)
    have hk2 : ¬k ∈ rest := fun h => hk (List.mem_cons_of_mem _ h)
    by_cases hc : (objsOf ds k').isEmpty = false
    · rw [mergeKeys, dif_pos hc, dget?, if_neg hne]
      exact ih hk2
    · rw [mergeKeys, dif_neg hc, dget?, if_neg hne]
      exact ih hk2

theorem dget?_mergeKeys_of_mem (ds : List Obj) (ks : List String) (k : String)
    (hnd : ks.Nodup) (hk : k ∈ ks) :
    dget? (mergeKeys ds ks) k =
      some (if (objsOf ds k).isEmpty = false then JVal.obj (dict_merge (objsOf ds k))
            else (valuesOf ds k).getLastD JVal.null) := by
  induction ks with
  | nil => simp at hk
  | cons k' rest ih =>
    rcases List.mem_cons.mp hk with he | hmem
    · subst he
      by_cases hc : (objsOf ds k).isEmpty = false
      · rw [mergeKeys, dif_pos hc, dget?, if_pos rfl, if_pos hc]
      · rw [mergeKeys, dif_neg hc, dget?, if_pos rfl, if_neg hc]
    · have hne : k' ≠ k := by
        intro he
        subst he
        exact (List.nodup_cons.mp hnd).1 hmem
      by_cases hc : (objsOf ds k').isEmpty = false
      · rw [mergeKeys, dif_pos hc, dget?, if_neg hne]
        exact ih (List.nodup_cons.mp hnd).2 hmem
      · rw [mergeKeys, dif_neg hc, dget?, if_neg hne]
        exact ih (List.nodup_cons.mp hnd).2 hmem

/-- C2: `dict_merge` has key set equal to the union of the inputs' key sets;
at a key with at least one dict-valued occurrence the result is the recursive
merge of exactly the dict-valued occurrences (non-dict occurrences are
silently dropped); otherwise the result is the value from the last input
containing the key; and the two right-bias examples of the specification
evaluate as stated. -/
theorem c2_dict_merge_spec :
    (∀ (ds : List Obj) (k : String),
      containsKey (dict_merge ds) k = true ↔ ∃ d ∈ ds, containsKey d k = true) ∧
    (∀ (ds : List Obj) (k : String), objsOf ds k ≠ [] →
      dget? (dict_merge ds) k = some (JVal.obj (dict_merge (objsOf ds k)))) ∧
    (∀ (ds : List Obj) (k : String), objsOf ds k = [] →
      dget? (dict_merge ds) k = (valuesOf ds k).getLast?) ∧
    dict_merge [[("a", JVal.int 1)], [("a", JVal.int 2)]] = [("a", JVal.int 2)] ∧
    dict_merge [[("a", JVal.obj [("x", JVal.int 1)])], [("a", JVal.obj [("y", JVal.int 2)])]] =
      [("a", JVal.obj [("x", JVal.int 1), ("y", JVal.int 2)])] := by
  have hkeyset : ∀ (ds : List Obj) (k : String),
      containsKey (dict_merge ds) k = true ↔ ∃ d ∈ ds, containsKey d k = true := by
    intro ds k
    rw [← mem_unionKeys]
    constructor
    · intro h
      by_contra hmem
      rw [containsKey, dict_merge, dget?_mergeKeys_of_not_mem ds (unionKeys ds) k hmem] at h
      simp at h
    · intro hmem
      rw [containsKey, dict_merge,
        dget?_mergeKeys_of_mem ds (unionKeys ds) k (nodup_unionKeys ds) hmem]
      rfl
  refine ⟨hkeyset, ?_, ?_, ?_, ?_⟩
  · intro ds k hobj
    have hval := objsOf_sub_valuesOf ds k hobj
    have hd : ∃ d ∈ ds, containsKey d k = true := by
      by_contra hcon
      push_neg at hcon
      have : ∀ d ∈ ds, containsKey d k = false := by
        intro d hdm
        have := hcon d hdm
        simpa using this
      exact hval ((valuesOf_eq_nil_iff ds k).mpr this)
    have hmem := (mem_unionKeys ds k).mpr hd
    rw [dict_merge, dget?_mergeKeys_of_mem ds (unionKeys ds) k (nodup_unionKeys ds) hmem]
    have hcond : (objsOf ds k).isEmpty = false := by
      cases hh : objsOf ds k with
      | nil => exact absurd hh hobj
      | cons a b => simp
    rw [if_pos hcond]
  · intro ds k hobj
    by_cases hmem : k ∈ unionKeys ds
    · rw [dict_merge, dget?_mergeKeys_of_mem ds (unionKeys ds) k (nodup_unionKeys ds) hmem]
      have hcond : ¬(objsOf ds k).isEmpty = false := by
        rw [hobj]
        simp
      rw [if_neg hcond]
      have hval : valuesOf ds k ≠ [] := by
        intro hnil
        have := (valuesOf_eq_nil_iff ds k).mp hnil
        rcases (mem_unionKeys ds k).mp hmem with ⟨d, hd, hk⟩
        rw [this d hd] at hk
        simp at hk
      cases hh : valuesOf ds k with
      | nil => exact absurd hh hval
      | cons a b => simp [List.getLastD_eq_getLast?, List.getLast?_cons]
    · rw [dict_merge, dget?_mergeKeys_of_not_mem ds (unionKeys ds) k hmem]
      have hval : valuesOf ds k = [] := by
        rw [valuesOf_eq_nil_iff]
        intro d hd
        by_contra hc
        exact hmem ((mem_unionKeys ds k).mpr ⟨d, hd, by simpa using hc⟩)
      rw [hval]
      rfl
  · simp [dict_merge, mergeKeys, unionKeys, dedupFirstAux, valuesOf, objsOf, objPick, dget?]
  · simp [dict_merge, mergeKeys, unionKeys, dedupFirstAux, valuesOf, objsOf, objPick, dget?]

/-- Closed witness for C2 at concrete inputs, exercising the key-set clause,
the dict-recursion clause and the last-value clause. -/
theorem c2_dict_merge_spec_witness :
    (containsKey (dict_merge [[("a", JVal.int 1)], [("b", JVal.int 2)]]) "b" = true) ∧
    dget? (dict_merge [[("a", JVal.obj [("x", JVal.int 1)])], [("a", JVal.int 7)]]) "a" =
      some (JVal.obj (dict_merge (objsOf [[("a", JVal.obj [("x", JVal.int 1)])], [("a", JVal.int 7)]] "a"))) ∧
    dget? (dict_merge [[("a", JVal.int 1)], [("a", JVal.int 2)]]) "a" =
      (valuesOf [[("a", JVal.int 1)], [("a", JVal.int 2)]] "a").getLast? := by
  refine ⟨?_, ?_, ?_⟩
  · exact (c2_dict_merge_spec.1 [[("a", JVal.int 1)], [("b", JVal.int 2)]] "b").mpr
      ⟨[("b", JVal.int 2)], by simp, rfl⟩
  · refine c2_dict_merge_spec.2.1 _ "a" ?_
    simp [objsOf, valuesOf, objPick, dget?]
  · refine c2_dict_merge_spec.2.2.1 _ "a" ?_
    simp [objsOf, valuesOf, objPick, dget?]

/-! ## Claim C8: key-name validation -/

theorem keyname_valid_iff_grammar (s : String) :
    keyname_valid s = true ↔
      (grammarFullMatch s = true ∨
        ∃ t : String, s = t ++ "\n" ∧ grammarFullMatch t = true) := by
  obtain ⟨l⟩ := s
  cases l with
  | nil =>
    simp [keyname_valid, grammarFullMatch]
    intro t ht
    have := congrArg String.data ht
    obtain ⟨tl⟩ := t
    simp [String.data] at this
  | cons c rest =>
    constructor
    · intro h
      rw [keyname_valid] at h
      simp only [Bool.and_eq_true, Bool.or_eq_true] at h
      obtain ⟨hc, h2⟩ := h
      rcases h2 with h2 | h2
      · left
        rw [grammarFullMatch]
        simp [hc, h2]
      · right
        simp only [Bool.and_eq_true, beq_iff_eq, Bool.not_eq_true'] at h2
        obtain ⟨⟨hne, hlast⟩, hinit⟩ := h2
        have hrest : rest ≠ [] := by
          intro hnil
          rw [hnil] at hne
          simp at hne
        refine ⟨⟨c :: rest.dropLast⟩, ?_, ?_⟩
        · have hd : (c :: rest.dropLast) ++ ('\n' :: []) = c :: rest := by
            have hlast2 : rest.getLast hrest = '\n' := by
              have := List.getLast?_eq_getLast rest hrest
              rw [this] at hlast
              exact (Option.some_inj.mp hlast).symm ▸ rfl
            calc (c :: rest.dropLast) ++ ('\n' :: [])
                = c :: (rest.dropLast ++ ['\n']) := by simp
              _ = c :: (rest.dropLast ++ [rest.getLast hrest]) := by rw [hlast2]
              _ = c :: rest := by rw [List.dropLast_append_getLast]
          show String.mk (c :: rest) = _
          rw [show (⟨c :: rest.dropLast⟩ ++ ("\n" : String) : String)
              = ⟨(c :: rest.dropLast) ++ ('\n' :: [])⟩ from rfl, hd]
        · rw [grammarFullMatch]
          simp [hc, hinit]
    · intro h
      rcases h with h | ⟨t, ht, hg⟩
      · rw [grammarFullMatch] at h
        simp only [Bool.and_eq_true] at h
        rw [keyname_valid]
        simp [h.1, h.2]
      · obtain ⟨tl⟩ := t
        have hdata : c :: rest = tl ++ ['\n'] := congrArg String.data ht
        cases tl with
        | nil =>
          rw [grammarFullMatch] at hg
          simp at hg
        | cons c' tl' =>
          simp only [List.cons_append, List.cons.injEq] at hdata
          obtain ⟨hc, hrest⟩ := hdata
          subst hc
          subst hrest
          rw [grammarFullMatch] at hg
          simp only [Bool.and_eq_true] at hg
          rw [keyname_valid]
          simp [hg.1, hg.2, List.getLast?_concat, List.dropLast_concat]

mutual

/-- Operational characterization of `inspectItems`: success iff all keys are
valid, and on failure the error names an invalid key occurring at some depth. -/
theorem inspect_spec_items (d : Obj) :
    (allKeysValid d = true → inspectItems d = Except.ok true) ∧
    (allKeysValid d = false → ∃ k2, keyname_valid k2 = false ∧ keyAtDepth d k2 = true ∧
      inspectItems d = Except.error ("INVALID_DATA_KEY_ERROR:" ++ k2)) := by
  cases d with
  | nil => simp [allKeysValid, inspectItems]
  | cons hd rest =>
    obtain ⟨k, v⟩ := hd
    have hrest := inspect_spec_items rest
    constructor
    · intro hall
      rw [allKeysValid] at hall
      simp only [Bool.and_eq_true] at hall
      obtain ⟨⟨hk, hv⟩, hr⟩ := hall
      have hstep : inspectItems ((k, v) :: rest) = inspectItems rest := by
        cases v with
        | obj m =>
          have hm := ((inspect_spec_items m).1 (by simpa [allKeysValidVal] using hv))
          simp only [inspectItems]
          simp [dict_inspect_valid_keyname, hm, hk, Except.bind]
        | arr l =>
          have hl := ((inspect_spec_elems l).1 (by simpa [allKeysValidVal] using hv))
          simp only [inspectItems]
          simp [hl, hk, Except.bind]
        | null =>
          simp only [inspectItems]
          simp [hk, Except.bind]
        | bool b =>
          simp only [inspectItems]
          simp [hk, Except.bind]
        | int n =>
          simp only [inspectItems]
          simp [hk, Except.bind]
        | str s =>
          simp only [inspectItems]
          simp [hk, Except.bind]
        | date a b =>
          simp only [inspectItems]
          simp [hk, Except.bind]
      rw [hstep]
      exact hrest.1 hr
    · intro hall
      rw [allKeysValid] at hall
      simp only [Bool.and_eq_false_iff] at hall
      by_cases hv : allKeysValidVal v = true
      · -- the child subtrees are clean; the failure is the key or the rest
        have hchild :
            inspectItems ((k, v) :: rest) =
              (if keyname_valid k = false then Except.error ("INVALID_DATA_KEY_ERROR:" ++ k)
               else inspectItems rest) := by
          cases v with
          | obj m =>
            have hm := ((inspect_spec_items m).1 (by simpa [allKeysValidVal] using hv))
            simp only [inspectItems]
            simp [dict_inspect_valid_keyname, hm, Except.bind]
          | arr l =>
            have hl := ((inspect_spec_elems l).1 (by simpa [allKeysValidVal] using hv))
            simp only [inspectItems]
            simp [hl, Except.bind]
          | null =>
            simp only [inspectItems]
            simp [Except.bind]
          | bool b =>
            simp only [inspectItems]
            simp [Except.bind]
          | int n =>
            simp only [inspectItems]
            simp [Except.bind]
          | str s =>
            simp only [inspectItems]
            simp [Except.bind]
          | date a b =>
            simp only [inspectItems]
            simp [Except.bind]
        by_cases hk : keyname_valid k = true
        · -- failure must be in the rest
          have hr : allKeysValid rest = false := by
            rcases hall with (h | h) | h
            · exact absurd h (by simp [hk])
            · exact absurd h (by simp [hv])
            · exact h
          obtain ⟨k2, hk2, hdepth, herr⟩ := hrest.2 hr
          refine ⟨k2, hk2, ?_, ?_⟩
          · rw [keyAtDepth]
            simp [hdepth]
          · rw [hchild, if_neg (by simp [hk]), herr]
        · refine ⟨k, by simpa using hk, ?_, ?_⟩
          · rw [keyAtDepth]
            simp
          · rw [hchild, if_pos (by simpa using hk)]
      · -- a child subtree contains the invalid key; it is reported first
        cases v with
        | obj m =>
          have hm : allKeysValid m = false := by
            revert hv
            rw [allKeysValidVal]
            cases allKeysValid m <;> simp
          obtain ⟨k2, hk2, hdepth, herr⟩ := (inspect_spec_items m).2 hm
          refine ⟨k2, hk2, ?_, ?_⟩
          · rw [keyAtDepth, keyAtDepthVal]
            simp [hdepth]
          · simp only [inspectItems]
            simp [dict_inspect_valid_keyname, herr, Except.bind]
        | arr l =>
          have hl : allKeysValidElems l = false := by
            revert hv
            rw [allKeysValidVal]
            cases allKeysValidElems l <;> simp
          obtain ⟨k2, hk2, hdepth, herr⟩ := (inspect_spec_elems l).2 hl
          refine ⟨k2, hk2, ?_, ?_⟩
          · rw [keyAtDepth, keyAtDepthVal]
            simp [hdepth]
          · simp only [inspectItems]
            simp [herr, Except.bind]
        | null => simp [allKeysValidVal] at hv
        | bool b => simp [allKeysValidVal] at hv
        | int n => simp [allKeysValidVal] at hv
        | str s => simp [allKeysValidVal] at hv
        | date a b => simp [allKeysValidVal] at hv
termination_by (sizeOf d, 1)
decreasing_by
  all_goals simp_wf
  all_goals first
    | exact Prod.Lex.right _ (Nat.lt_succ_self _)
    | apply Prod.Lex.left
      omega

/-- Operational characterization of `inspectElems`. -/
theorem inspect_spec_elems (l : List JVal) :
    (allKeysValidElems l = true → inspectElems l = Except.ok true) ∧
    (allKeysValidElems l = false → ∃ k2, keyname_valid k2 = false ∧
      keyAtDepthElems l k2 = true ∧
      inspectElems l = Except.error ("INVALID_DATA_KEY_ERROR:" ++ k2)) := by
  cases l with
  | nil => simp [allKeysValidElems, inspectElems]
  | cons v rest =>
    have hrest := inspect_spec_elems rest
    cases v with
    | obj m =>
      constructor
      · intro hall
        rw [allKeysValidElems] at hall
        simp only [Bool.and_eq_true] at hall
        have hm := (inspect_spec_items m).1 hall.1
        simp only [inspectElems]
        simp [dict_inspect_valid_keyname, hm, Except.bind]
        exact hrest.1 hall.2
      · intro hall
        rw [allKeysValidElems] at hall
        rcases Bool.and_eq_false_iff.mp hall with hm | hr
        · obtain ⟨k2, hk2, hdepth, herr⟩ := (inspect_spec_items m).2 hm
          refine ⟨k2, hk2, ?_, ?_⟩
          · rw [keyAtDepthElems]
            simp [hdepth]
          · simp only [inspectElems]
            simp [dict_inspect_valid_keyname, herr, Except.bind]
        · by_cases hm : allKeysValid m = true
          · obtain ⟨k2, hk2, hdepth, herr⟩ := hrest.2 hr
            refine ⟨k2, hk2, ?_, ?_⟩
            · rw [keyAtDepthElems]
              simp [hdepth]
            · have hmok := (inspect_spec_items m).1 hm
              simp only [inspectElems]
              simp [dict_inspect_valid_keyname, hmok, Except.bind, herr]
          · have hm2 : allKeysValid m = false := by
              cases hmm : allKeysValid m
              · rfl
              · exact absurd hmm hm
            obtain ⟨k2, hk2, hdepth, herr⟩ := (inspect_spec_items m).2 hm2
            refine ⟨k2, hk2, ?_, ?_⟩
            · rw [keyAtDepthElems]
              simp [hdepth]
            · simp only [inspectElems]
              simp [dict_inspect_valid_keyname, herr, Except.bind]
    | null =>
      simp only [allKeysValidElems, inspectElems, keyAtDepthElems]
      exact hrest
    | bool b =>
      simp only [allKeysValidElems, inspectElems, keyAtDepthElems]
      exact hrest
    | int n =>
      simp only [allKeysValidElems, inspectElems, keyAtDepthElems]
      exact hrest
    | str s =>
      simp only [allKeysValidElems, inspectElems, keyAtDepthElems]
      exact hrest
    | date a b =>
      simp only [allKeysValidElems, inspectElems, keyAtDepthElems]
      exact hrest
    | arr l2 =>
      simp only [allKeysValidElems, inspectElems, keyAtDepthElems]
      exact hrest
termination_by (sizeOf l, 0)
decreasing_by
  all_goals simp_wf
  all_goals first
    | exact Prod.Lex.right _ (Nat.lt_succ_self _)
    | apply Prod.Lex.left
      omega

end

/-- C8 counterexample: the claim as stated is false.  The key `"a\n"` does not
match the grammar `^[A-Za-z_$][A-Za-z0-9_\-$]*$` read as an exact full-string
match, yet `dict_inspect_valid_keyname({"a\n": 1})` returns `True` (and does
not fail), because Python `re`'s `$` also matches just before a trailing
newline. -/
theorem c8_counterexample :
    dict_inspect_valid_keyname [("a\n", JVal.int 1)] = Except.ok true ∧
    grammarFullMatch "a\n" = false ∧
    keyname_valid "a\n" = true := by
  refine ⟨?_, by decide, by decide⟩
  have hk : keyname_valid "a\n" = true := by decide
  simp only [dict_inspect_valid_keyname, inspectItems]
  simp [hk]

/-- C8 (amended): `dict_inspect_valid_keyname(d)` returns true iff every key
at every depth — descending into nested mappings and into mapping elements of
sequences — satisfies `keyname_valid`, that is, matches the grammar
`^[A-Za-z_$][A-Za-z0-9_\-$]*$` either exactly or followed by one trailing
newline (Python `re` `$` semantics); when it fails, the error carries the
offending key name, which is an invalid key occurring at some depth;
`{"valid_key": 1}` passes and `{"bad key": 1}` fails naming `"bad key"`. -/
theorem c8_inspect_valid_keynames :
    (∀ d : Obj, dict_inspect_valid_keyname d = Except.ok true ↔ allKeysValid d = true) ∧
    (∀ (d : Obj) (e : String), dict_inspect_valid_keyname d = Except.error e →
      ∃ k, e = "INVALID_DATA_KEY_ERROR:" ++ k ∧ keyname_valid k = false ∧
        keyAtDepth d k = true) ∧
    (∀ s : String, keyname_valid s = true ↔
      (grammarFullMatch s = true ∨ ∃ t : String, s = t ++ "\n" ∧ grammarFullMatch t = true)) ∧
    dict_inspect_valid_keyname [("valid_key", JVal.int 1)] = Except.ok true ∧
    dict_inspect_valid_keyname [("bad key", JVal.int 1)] =
      Except.error "INVALID_DATA_KEY_ERROR:bad key" := by
  refine ⟨?_, ?_, keyname_valid_iff_grammar, ?_, ?_⟩
  · intro d
    constructor
    · intro h
      cases hall : allKeysValid d with
      | true => rfl
      | false =>
        obtain ⟨k, -, -, herr⟩ := (inspect_spec_items d).2 hall
        rw [dict_inspect_valid_keyname] at h
        rw [herr] at h
        exact absurd h (by simp)
    · intro h
      rw [dict_inspect_valid_keyname]
      exact (inspect_spec_items d).1 h
  · intro d e h
    cases hall : allKeysValid d with
    | true =>
      have := (inspect_spec_items d).1 hall
      rw [dict_inspect_valid_keyname, this] at h
      exact absurd h (by simp)
    | false =>
      obtain ⟨k, hk, hdepth, herr⟩ := (inspect_spec_items d).2 hall
      rw [dict_inspect_valid_keyname, herr] at h
      refine ⟨k, ?_, hk, hdepth⟩
      exact (Except.error.inj h).symm
  · have hk : keyname_valid "valid_key" = true := by decide
    simp only [dict_inspect_valid_keyname, inspectItems]
    simp [hk]
  · have hk : keyname_valid "bad key" = false := by decide
    simp only [dict_inspect_valid_keyname, inspectItems]
    simp [hk]

/-- Closed witness for C8 at concrete inputs. -/
theorem c8_inspect_valid_keynames_witness :
    allKeysValid [("valid_key", JVal.int 1)] = true ∧
    (∃ k, ("INVALID_DATA_KEY_ERROR:bad key" : String) = "INVALID_DATA_KEY_ERROR:" ++ k ∧
      keyname_valid k = false ∧ keyAtDepth [("bad key", JVal.int 1)] k = true) ∧
    (keyname_valid "my-key$2" = true ↔
      (grammarFullMatch "my-key$2" = true ∨
        ∃ t : String, ("my-key$2" : String) = t ++ "\n" ∧ grammarFullMatch t = true)) := by
  have h := c8_inspect_valid_keynames
  exact ⟨(h.1 _).mp h.2.2.2.1, h.2.1 _ _ h.2.2.2.2, h.2.2.1 _⟩

/-! ## Claims C3 and C9: dict_pick -/

theorem dget?_dset (d : Obj) (k : String) (v : JVal) (q : String) :
    dget? (dset d k v) q = if k = q then some v else dget? d q := by
  induction d with
  | nil =>
    by_cases hk : k = q <;> simp [dset, dget?, hk]
  | cons hd tl ih =>
    obtain ⟨k', v'⟩ := hd
    by_cases h1 : k' = k
    · subst h1
      by_cases h2 : k' = q
      · subst h2
        simp [dset, dget?]
      · simp [dset, dget?, h2]
    · by_cases h2 : k' = q
      · subst h2
        rw [dset, if_neg h1, dget?, if_pos rfl, dget?, if_pos rfl]
        have : ¬k = k' := fun h => h1 h.symm
        rw [if_neg this]
      · rw [dset, if_neg h1, dget?, if_neg h2, dget?, if_neg h2, ih]

theorem find?_append {α : Type} (p : α → Bool) (l1 l2 : List α) :
    List.find? p (l1 ++ l2) =
      (match List.find? p l1 with
       | some x => some x
       | none => List.find? p l2) := by
  induction l1 with
  | nil => simp
  | cons x rest ih =>
    by_cases hx : p x = true
    · simp [List.find?, hx]
    · simp only [List.cons_append, List.find?]
      rw [Bool.not_eq_true] at hx
      rw [hx]
      exact ih

theorem dget?_foldl_dset (pairs : List (String × JVal)) :
    ∀ (init : Obj) (q : String),
      dget? (pairs.foldl (fun df u2 => dset df u2.1 u2.2) init) q =
        (match pairs.reverse.find? (fun kv => kv.1 == q) with
         | some kv => some kv.2
         | none => dget? init q) := by
  induction pairs with
  | nil => simp
  | cons kv rest ih =>
    intro init q
    obtain ⟨k0, v0⟩ := kv
    rw [List.foldl_cons, ih, List.reverse_cons, find?_append]
    cases hf : rest.reverse.find? (fun kv => kv.1 == q) with
    | some kv2 => rfl
    | none =>
      simp only [List.find?]
      by_cases hq : k0 = q
      · subst hq
        simp [dget?_dset]
      · have : (k0 == q) = false := by simp [hq]
        rw [this]
        simp only [List.find?]
        rw [dget?_dset, if_neg hq]

theorem dotDescendants_eq_filter (fd : Obj) (k : String) :
    dotDescendants fd k = fd.filter (fun kv => (k ++ ".").isPrefixOf kv.1) := by
  induction fd with
  | nil => simp [dotDescendants]
  | cons hd tl ih =>
    obtain ⟨dk, dv⟩ := hd
    by_cases hp : (k ++ ".").isPrefixOf dk = true
    · rw [dotDescendants, if_pos hp, ih, List.filter_cons]
      simp [hp]
    · rw [dotDescendants, if_neg hp, ih, List.filter_cons]
      simp only [Bool.not_eq_true] at hp
      simp [hp]

theorem merge_l2d_eq_foldl (ls : List (List (String × JVal))) :
    ∀ init : Obj,
      ls.foldl (fun df u => u.foldl (fun df2 u2 => dset df2 u2.1 u2.2) df) init =
        (ls.flatten).foldl (fun df2 u2 => dset df2 u2.1 u2.2) init := by
  induction ls with
  | nil => simp
  | cons u rest ih =>
    intro init
    rw [List.foldl_cons, ih, List.flatten_cons, List.foldl_append]

/-- C3: `dict_pick` flattens the input, then for each requested path selects
the exact flattened entry when the path is itself a flattened key and
otherwise every flattened entry whose key starts with the path followed by a
dot, merges all selected pairs into one flat mapping with later picks
overwriting earlier ones on exact key collision, and unflattens the result;
the specification's example evaluates as stated. -/
theorem c3_dict_pick_spec :
    (∀ (fd : Obj) (k : String),
      dict_pick_lookup_dict fd k =
        (match dget? fd k with
         | some v => [(k, v)]
         | none => fd.filter (fun kv => (k ++ ".").isPrefixOf kv.1))) ∧
    (∀ (ls : List (List (String × JVal))) (q : String),
      dget? (dict_pick_merge_l2d ls) q =
        (match (ls.flatten).reverse.find? (fun kv => kv.1 == q) with
         | some kv => some kv.2
         | none => none)) ∧
    (∀ (ddict : Obj) (keys : List String),
      dict_pick ddict keys false =
        (match unflatten_dict (dict_pick_merge_l2d
            (keys.map (fun k => dict_pick_lookup_dict (flatten_dict ddict "") k))) with
         | Except.ok u => Except.ok u
         | Except.error (UnflattenError.structureConflict p) =>
           Except.error (PickError.structureConflict p))) ∧
    dict_pick [("name", JVal.str "MM"),
               ("location", JVal.obj [("city", JVal.str "Charlotte"), ("state", JVal.str "NC")]),
               ("age", JVal.int 100)]
              ["name", "location.city"] false =
      Except.ok [("name", JVal.str "MM"),
                 ("location", JVal.obj [("city", JVal.str "Charlotte")])] := by
  refine ⟨?_, ?_, ?_, ?_⟩
  · intro fd k
    rw [dict_pick_lookup_dict]
    cases dget? fd k with
    | some v => rfl
    | none =>
      simp only
      exact dotDescendants_eq_filter fd k
  · intro ls q
    rw [dict_pick_merge_l2d, merge_l2d_eq_foldl, dget?_foldl_dset]
    cases (ls.flatten).reverse.find? (fun kv => kv.1 == q) with
    | some kv => rfl
    | none => rfl
  · intro ddict keys
    rw [dict_pick]
    rfl
  · have h1 : flatten_dict [("name", JVal.str "MM"),
                 ("location", JVal.obj [("city", JVal.str "Charlotte"), ("state", JVal.str "NC")]),
                 ("age", JVal.int 100)] "" =
        [("name", JVal.str "MM"), ("location.city", JVal.str "Charlotte"),
         ("location.state", JVal.str "NC"), ("age", JVal.int 100)] := by
      simp only [flatten_dict, flattenItems, dictUpdate]
      rfl
    have h2 : unflatten_dict [("name", JVal.str "MM"), ("location.city", JVal.str "Charlotte")] =
        Except.ok [("name", JVal.str "MM"),
                   ("location", JVal.obj [("city", JVal.str "Charlotte")])] := by
      simp only [unflatten_dict, unflattenItems, unflattenVal]
      rfl
    rw [dict_pick, h1]
    have h3 : dict_pick_merge_l2d
        (["name", "location.city"].map (fun k => dict_pick_lookup_dict
          [("name", JVal.str "MM"), ("location.city", JVal.str "Charlotte"),
           ("location.state", JVal.str "NC"), ("age", JVal.int 100)] k)) =
        [("name", JVal.str "MM"), ("location.city", JVal.str "Charlotte")] := rfl
    rw [show (if false = true then firstMissing
        [("name", JVal.str "MM"), ("location.city", JVal.str "Charlotte"),
         ("location.state", JVal.str "NC"), ("age", JVal.int 100)] ["name", "location.city"]
        else none) = none from rfl]
    rw [h3, h2]

/-- Support for C9: the `for k in keys: assert k in fd` loop reports a missing
requested key when one exists. -/
theorem firstMissing_spec (fd : Obj) (ks : List String)
    (h : ∃ k ∈ ks, containsKey fd k = false) :
    ∃ k2, firstMissing fd ks = some k2 ∧ k2 ∈ ks ∧ containsKey fd k2 = false := by
  induction ks with
  | nil => simp at h
  | cons k rest ih =>
    by_cases hk : containsKey fd k = true
    · have hrest : ∃ k3 ∈ rest, containsKey fd k3 = false := by
        obtain ⟨k3, hk3, hc⟩ := h
        rcases List.mem_cons.mp hk3 with he | he
        · subst he
          rw [hk] at hc
          simp at hc
        · exact ⟨k3, he, hc⟩
      obtain ⟨k2, h1, h2, h3⟩ := ih hrest
      refine ⟨k2, ?_, List.mem_cons_of_mem _ h2, h3⟩
      rw [firstMissing, if_pos hk]
      exact h1
    · refine ⟨k, ?_, List.mem_cons_self _ _, by simpa using hk⟩
      rw [firstMissing, if_neg hk]

/-- C9: `dict_pick` with `check_keys = true` and a requested path absent from
the flattened keys fails with the missing-key error naming a missing requested
path, before any result mapping is produced. -/
theorem c9_pick_missing_key :
    ∀ (d : Obj) (keys : List String),
      (∃ k ∈ keys, containsKey (flatten_dict d "") k = false) →
      ∃ k2, k2 ∈ keys ∧ containsKey (flatten_dict d "") k2 = false ∧
        dict_pick d keys true = Except.error (PickError.missingKey k2) := by
  intro d keys h
  obtain ⟨k2, h1, h2, h3⟩ := firstMissing_spec (flatten_dict d "") keys h
  refine ⟨k2, h2, h3, ?_⟩
  rw [dict_pick]
  simp only [if_true]
  rw [h1]

/-- Closed witness for C9 at a concrete input. -/
theorem c9_pick_missing_key_witness :
    ∃ k2, k2 ∈ ["b"] ∧ containsKey (flatten_dict [("a", JVal.int 1)] "") k2 = false ∧
      dict_pick [("a", JVal.int 1)] ["b"] true = Except.error (PickError.missingKey k2) := by
  refine c9_pick_missing_key [("a", JVal.int 1)] ["b"] ⟨"b", by simp, ?_⟩
  simp only [flatten_dict, flattenItems, dictUpdate]
  rfl

/-! ## Claim C4: unflatten structure conflicts -/

theorem splitDotAux_ne_nil (l : List Char) : ∀ acc : List Char, splitDotAux l acc ≠ [] := by
  induction l with
  | nil => intro acc; simp [splitDotAux]
  | cons c rest ih =>
    intro acc
    by_cases hc : (c == '.') = true
    · rw [splitDotAux, if_pos hc]
      simp
    · rw [splitDotAux, if_neg hc]
      exact ih (c :: acc)

theorem splitDot_ne_nil (s : String) : splitDot s ≠ [] :=
  splitDotAux_ne_nil s.data []

theorem setNested_cons_cons (out : Obj) (seg r : String) (rs : List String) (v : JVal) :
    setNested out (seg :: r :: rs) v =
      (match dget? out seg with
       | some (JVal.obj m) => (setNested m (r :: rs) v).map (fun m2 => dset out seg (JVal.obj m2))
       | some _ => none
       | none => (setNested ([] : Obj) (r :: rs) v).map (fun m2 => dset out seg (JVal.obj m2))) := rfl

theorem hasNonObj_cons_cons (out : Obj) (seg r : String) (rs : List String) :
    hasNonObjIntermediate out (seg :: r :: rs) =
      (match dget? out seg with
       | some (JVal.obj m) => hasNonObjIntermediate m (r :: rs)
       | some _ => true
       | none => false) := rfl

theorem getPath_cons_cons (m : Obj) (seg r : String) (rs : List String) :
    getPath m (seg :: r :: rs) =
      (match dget? m seg with
       | some (JVal.obj m2) => getPath m2 (r :: rs)
       | _ => none) := rfl

theorem setNested_fresh (path : List String) :
    ∀ v : JVal, path ≠ [] → ∃ m, setNested ([] : Obj) path v = some m := by
  induction path with
  | nil => intro v h; exact absurd rfl h
  | cons seg rest ih =>
    intro v _
    cases rest with
    | nil => exact ⟨[(seg, v)], rfl⟩
    | cons r rs =>
      obtain ⟨m, hm⟩ := ih v (by simp)
      refine ⟨dset [] seg (JVal.obj m), ?_⟩
      simp only [setNested, dget?, hm, Option.map_some']

theorem setNested_isNone_iff (path : List String) :
    ∀ (out : Obj) (v : JVal), path ≠ [] →
      (setNested out path v = none ↔ hasNonObjIntermediate out path = true) := by
  induction path with
  | nil => intro out v h; exact absurd rfl h
  | cons seg rest ih =>
    intro out v _
    cases rest with
    | nil => simp [setNested, hasNonObjIntermediate]
    | cons r rs =>
      rw [setNested_cons_cons, hasNonObj_cons_cons]
      cases hg : dget? out seg with
      | none =>
        obtain ⟨m, hm⟩ := setNested_fresh (r :: rs) v (by simp)
        rw [hm]
        simp
      | some w =>
        cases w with
        | obj m =>
          show (setNested m (r :: rs) v).map (fun m2 => dset out seg (JVal.obj m2)) = none ↔
            hasNonObjIntermediate m (r :: rs) = true
          rw [← ih m v (by simp)]
          cases hsm : setNested m (r :: rs) v <;> simp
        | null => exact iff_of_true rfl rfl
        | bool b => exact iff_of_true rfl rfl
        | int n => exact iff_of_true rfl rfl
        | str s => exact iff_of_true rfl rfl
        | date a b => exact iff_of_true rfl rfl
        | arr l => exact iff_of_true rfl rfl

theorem getPath_setNested (path : List String) :
    ∀ (out : Obj) (v : JVal) (res : Obj),
      setNested out path v = some res → getPath res path = some v := by
  induction path with
  | nil => intro out v res h; simp [setNested] at h
  | cons seg rest ih =>
    intro out v res h
    cases rest with
    | nil =>
      rw [setNested] at h
      cases h
      rw [getPath, dget?_dset, if_pos rfl]
    | cons r rs =>
      rw [setNested_cons_cons] at h
      cases hg : dget? out seg with
      | none =>
        rw [hg] at h
        have h2 : (setNested ([] : Obj) (r :: rs) v).map
            (fun m2 => dset out seg (JVal.obj m2)) = some res := h
        cases hs : setNested ([] : Obj) (r :: rs) v with
        | none => rw [hs] at h2; simp at h2
        | some m2 =>
          rw [hs] at h2
          simp only [Option.map_some'] at h2
          cases h2
          rw [getPath_cons_cons, dget?_dset, if_pos rfl]
          exact ih [] v m2 hs
      | some w =>
        rw [hg] at h
        cases w with
        | obj m =>
          have h2 : (setNested m (r :: rs) v).map
              (fun m2 => dset out seg (JVal.obj m2)) = some res := h
          cases hs : setNested m (r :: rs) v with
          | none => rw [hs] at h2; simp at h2
          | some m2 =>
            rw [hs] at h2
            simp only [Option.map_some'] at h2
            cases h2
            rw [getPath_cons_cons, dget?_dset, if_pos rfl]
            exact ih m v m2 hs
        | null => exact Option.noConfusion (show (none : Option Obj) = some res from h)
        | bool b => exact Option.noConfusion (show (none : Option Obj) = some res from h)
        | int n => exact Option.noConfusion (show (none : Option Obj) = some res from h)
        | str s2 => exact Option.noConfusion (show (none : Option Obj) = some res from h)
        | date a b => exact Option.noConfusion (show (none : Option Obj) = some res from h)
        | arr l => exact Option.noConfusion (show (none : Option Obj) = some res from h)

theorem unflattenItems_append (a : Obj) :
    ∀ (b : Obj) (out : Obj),
      unflattenItems (a ++ b) out =
        (match unflattenItems a out with
         | Except.ok out2 => unflattenItems b out2
         | Except.error e => Except.error e) := by
  induction a with
  | nil =>
    intro b out
    simp [unflattenItems]
  | cons kv rest ih =>
    intro b out
    obtain ⟨k, v⟩ := kv
    rw [List.cons_append]
    cases hv : unflattenVal v with
    | error e =>
      simp only [unflattenItems, hv, except_bind_error]
    | ok v2 =>
      simp only [unflattenItems, hv, except_bind_ok]
      cases hs : setNested out (splitDot k) v2 with
      | none => rfl
      | some out2 => exact ih b out2

/-- C4: `unflatten_dict` conflict behavior.  A `setNested` step fails exactly
when an intermediate segment of the dot path already addresses an existing
non-mapping value; a successful step assigns the value at the full path
(creating intermediate mappings); and when the entries processed so far
succeeded and the next entry's path has such a conflicting intermediate
segment, the whole `unflatten_dict` fails with the structure-conflict error
carrying that entry's full dot-path string. -/
theorem c4_unflatten_conflict :
    (∀ (out : Obj) (path : List String) (v : JVal), path ≠ [] →
      (setNested out path v = none ↔ hasNonObjIntermediate out path = true)) ∧
    (∀ (out : Obj) (path : List String) (v : JVal) (res : Obj),
      setNested out path v = some res → getPath res path = some v) ∧
    (∀ (fd1 : Obj) (k : String) (v v2 : JVal) (fd2 : Obj) (out : Obj),
      unflatten_dict fd1 = Except.ok out →
      unflattenVal v = Except.ok v2 →
      hasNonObjIntermediate out (splitDot k) = true →
      unflatten_dict (fd1 ++ (k, v) :: fd2) =
        Except.error (UnflattenError.structureConflict k)) := by
  refine ⟨?_, ?_, ?_⟩
  · intro out path v h
    exact setNested_isNone_iff path out v h
  · intro out path v res h
    exact getPath_setNested path out v res h
  · intro fd1 k v v2 fd2 out h1 h2 h3
    rw [unflatten_dict] at h1 ⊢
    rw [unflattenItems_append, h1]
    have hnone : setNested out (splitDot k) v2 = none :=
      (setNested_isNone_iff (splitDot k) out v2 (splitDot_ne_nil k)).mpr h3
    simp only [unflattenItems, h2, except_bind_ok, hnone]

/-- Closed witness for C4: unflattening `{"a": 2, "a.b": 1}` fails with the
structure-conflict error carrying the full offending path `"a.b"`. -/
theorem c4_unflatten_conflict_witness :
    unflatten_dict [("a", JVal.int 2), ("a.b", JVal.int 1)] =
      Except.error (UnflattenError.structureConflict "a.b") := by
  have h := c4_unflatten_conflict.2.2 [("a", JVal.int 2)] "a.b" (JVal.int 1) (JVal.int 1)
    [] [("a", JVal.int 2)] (by simp only [unflatten_dict, unflattenItems, unflattenVal]; rfl)
    (by simp [unflattenVal]) (by rfl)
  exact h

/-! ## Claim C7: timestamp round trip through json_ext -/

theorem dget?_dumpsEntries (c : TimeCodec) (m : Obj) (k : String) :
    dget? (dumpsEntries c m) k = (dget? m k).map (json_dumps_tree c) := by
  induction m with
  | nil => simp [dumpsEntries, dget?]
  | cons kv rest ih =>
    obtain ⟨k', v⟩ := kv
    by_cases hk : k' = k
    · subst hk
      simp only [dumpsEntries, dget?, if_pos rfl]
      rfl
    · simp only [dumpsEntries, dget?, if_neg hk]
      exact ih

theorem dget?_loadsEntries (c : TimeCodec) (m : Obj) (k : String) :
    dget? (loadsEntries c m) k =
      (dget? m k).map (fun v => promote c (json_loads_tree c v)) := by
  induction m with
  | nil => simp [loadsEntries, dget?]
  | cons kv rest ih =>
    obtain ⟨k', v⟩ := kv
    by_cases hk : k' = k
    · subst hk
      simp only [loadsEntries, dget?, if_pos rfl]
      rfl
    · simp only [loadsEntries, dget?, if_neg hk]
      exact ih

/-- C7 counterexample: the claim as stated is false.  Encoding a bare
date/time value yields a JSON string, and decoding that string yields a plain
string, not a date/time value: the `object_hook` promotion only runs on the
values of decoded mappings, so there is no promotion at the top level. -/
theorem c7_counterexample :
    json_loads_tree demoCodec (json_dumps_tree demoCodec (JVal.date 0 0)) = JVal.str "X" ∧
    isDate (json_loads_tree demoCodec (json_dumps_tree demoCodec (JVal.date 0 0))) = false := by
  constructor
  · simp only [json_dumps_tree, json_loads_tree]
    rfl
  · simp only [json_dumps_tree, json_loads_tree]
    rfl

/-- C7 as amended: for a date/time value stored as a direct value of an
encoded mapping, decoding the encoded mapping yields a mapping whose value at
that key is a date/time value denoting the same instant, provided the
date/time codec parses back what it formats to the same instant (the
documented behavior of `isoformat`/`fromisoformat`/`arrow.get`). -/
theorem c7_timestamp_roundtrip :
    ∀ (c : TimeCodec) (m : Obj) (k : String) (e o : Int),
      dget? m k = some (JVal.date e o) →
      (c.parse (c.fmt e o)).map Prod.fst = some e →
      ∃ m2 o2, json_loads_tree c (json_dumps_tree c (JVal.obj m)) = JVal.obj m2 ∧
        dget? m2 k = some (JVal.date e o2) := by
  intro c m k e o hget hparse
  refine ⟨loadsEntries c (dumpsEntries c m), ?_⟩
  cases hp : c.parse (c.fmt e o) with
  | none => rw [hp] at hparse; simp at hparse
  | some eo =>
    obtain ⟨e', o2⟩ := eo
    rw [hp] at hparse
    simp only [Option.map_some'] at hparse
    have he : e' = e := Option.some_inj.mp hparse
    subst he
    refine ⟨o2, ?_, ?_⟩
    · simp only [json_dumps_tree, json_loads_tree]
    · rw [dget?_loadsEntries, dget?_dumpsEntries, hget]
      simp only [Option.map_some', json_dumps_tree, json_loads_tree, promote, hp]

/-- Closed witness for C7 at the demo codec and a concrete mapping. -/
theorem c7_timestamp_roundtrip_witness :
    ∃ m2 o2,
      json_loads_tree demoCodec (json_dumps_tree demoCodec
        (JVal.obj [("t", JVal.date 0 0)])) = JVal.obj m2 ∧
      dget? m2 "t" = some (JVal.date 0 o2) :=
  c7_timestamp_roundtrip demoCodec [("t", JVal.date 0 0)] "t" 0 0 rfl rfl

/-! ## Claim C1: string-level lemmas for dot paths -/

theorem sdata_append (a b : String) : (a ++ b).data = a.data ++ b.data := by
  obtain ⟨la⟩ := a
  obtain ⟨lb⟩ := b
  rfl

theorem string_eta (s : String) : (⟨s.data⟩ : String) = s := by
  obtain ⟨l⟩ := s
  rfl

theorem string_ext {a b : String} (h : a.data = b.data) : a = b := by
  obtain ⟨la⟩ := a
  obtain ⟨lb⟩ := b
  exact congrArg String.mk h

theorem string_append_assoc (a b c : String) : (a ++ b) ++ c = a ++ (b ++ c) := by
  apply string_ext
  rw [sdata_append, sdata_append, sdata_append, sdata_append, List.append_assoc]

theorem dropWhile_dot_of_all (l : List Char) (h : ∀ c ∈ l, (c == '.') = false) :
    l.dropWhile (fun c => c == '.') = l := by
  cases l with
  | nil => rfl
  | cons c rest =>
    rw [List.dropWhile_cons, h c (List.mem_cons_self c rest)]
    simp

theorem dropWhile_dot_cons (c : Char) (rest : List Char) (h : (c == '.') = false) :
    (c :: rest).dropWhile (fun c => c == '.') = c :: rest := by
  rw [List.dropWhile_cons, h]
  simp

theorem goodKey_spec (k : String) (h : goodKey k = true) :
    k.data ≠ [] ∧ ∀ c ∈ k.data, (c == '.') = false := by
  rw [goodKey] at h
  simp only [Bool.and_eq_true, Bool.not_eq_true', List.all_eq_true] at h
  obtain ⟨⟨h1, h2⟩, -⟩ := h
  constructor
  · intro hnil
    rw [List.isEmpty_eq_false] at h1
    exact h1 hnil
  · intro c hc
    have := h2 c hc
    simpa using this

theorem dotJoin_cons_cons (p q : String) (qs : List String) :
    dotJoin (p :: q :: qs) = p ++ "." ++ dotJoin (q :: qs) := rfl

theorem dotJoin_single (p : String) : dotJoin [p] = p := rfl

theorem dotJoin_head (p : String) (ps : List String) (hp : goodKey p = true) :
    ∃ c cs, (dotJoin (p :: ps)).data = c :: cs ∧ (c == '.') = false := by
  obtain ⟨hne, hdot⟩ := goodKey_spec p hp
  obtain ⟨c, cs, hcs⟩ : ∃ c cs, p.data = c :: cs := by
    cases hd : p.data with
    | nil => exact absurd hd hne
    | cons c cs => exact ⟨c, cs, rfl⟩
  have hc : (c == '.') = false := hdot c (by rw [hcs]; exact List.mem_cons_self c cs)
  cases ps with
  | nil => exact ⟨c, cs, by rw [dotJoin_single, hcs], hc⟩
  | cons q qs =>
    refine ⟨c, cs ++ ('.' :: (dotJoin (q :: qs)).data), ?_, hc⟩
    rw [dotJoin_cons_cons, sdata_append, sdata_append, hcs]
    simp

theorem dotJoin_append_single (P : List String) (k : String) (h : P ≠ []) :
    dotJoin (P ++ [k]) = dotJoin P ++ "." ++ k := by
  induction P with
  | nil => exact absurd rfl h
  | cons p ps ih =>
    cases ps with
    | nil => rfl
    | cons q qs =>
      have h1 : dotJoin (p :: ((q :: qs) ++ [k])) = p ++ "." ++ dotJoin ((q :: qs) ++ [k]) := rfl
      rw [List.cons_append, h1, ih (by simp), dotJoin_cons_cons]
      apply string_ext
      simp [sdata_append, List.append_assoc]

theorem stripDots_id (s : String)
    (h1 : ∃ c cs, s.data = c :: cs ∧ (c == '.') = false)
    (h2 : ∃ c cs, s.data.reverse = c :: cs ∧ (c == '.') = false) :
    stripDots s = s := by
  obtain ⟨c1, cs1, hd1, hc1⟩ := h1
  obtain ⟨c2, cs2, hd2, hc2⟩ := h2
  rw [stripDots, hd1, dropWhile_dot_cons c1 cs1 hc1, ← hd1, hd2,
    dropWhile_dot_cons c2 cs2 hc2, ← hd2, List.reverse_reverse]

theorem stripDots_dotJoin_key (P : List String) (k : String)
    (hP : ∀ s ∈ P, goodKey s = true) (hk : goodKey k = true) :
    stripDots (dotJoin P ++ "." ++ k) = dotJoin (P ++ [k]) := by
  obtain ⟨hkne, hkdot⟩ := goodKey_spec k hk
  obtain ⟨ck, csk, hcsk⟩ : ∃ c cs, k.data = c :: cs := by
    cases hd : k.data with
    | nil => exact absurd hd hkne
    | cons c cs => exact ⟨c, cs, rfl⟩
  cases P with
  | nil =>
    have hdata : ((dotJoin [] ++ "." ++ k : String)).data = '.' :: k.data := by
      rw [show dotJoin [] = "" from rfl, sdata_append]
      rfl
    rw [show dotJoin ([] ++ [k]) = k from rfl]
    rw [stripDots, hdata]
    have hfront : ('.' :: k.data).dropWhile (fun c => c == '.') = k.data := by
      rw [List.dropWhile_cons]
      simp only [beq_self_eq_true, if_true]
      exact dropWhile_dot_of_all k.data hkdot
    rw [hfront]
    have hback : k.data.reverse.dropWhile (fun c => c == '.') = k.data.reverse := by
      apply dropWhile_dot_of_all
      intro c hc
      exact hkdot c (List.mem_reverse.mp hc)
    rw [hback, List.reverse_reverse]
  | cons p ps =>
    rw [dotJoin_append_single (p :: ps) k (by simp)]
    apply stripDots_id
    · obtain ⟨c, cs, hd, hc⟩ := dotJoin_head p ps (hP p (List.mem_cons_self p ps))
      refine ⟨c, cs ++ ('.' :: k.data), ?_, hc⟩
      rw [sdata_append, sdata_append, hd]
      simp
    · have hrev : ∃ c2 cs2, k.data.reverse = c2 :: cs2 := by
        cases hr : k.data.reverse with
        | nil =>
          rw [List.reverse_eq_nil_iff] at hr
          exact absurd hr hkne
        | cons c2 cs2 => exact ⟨c2, cs2, rfl⟩
      obtain ⟨c2, cs2, hr⟩ := hrev
      have hc2 : (c2 == '.') = false := by
        apply hkdot
        rw [← List.mem_reverse, hr]
        exact List.mem_cons_self _ _
      refine ⟨c2, cs2 ++ ('.' :: (dotJoin (p :: ps)).data.reverse), ?_, hc2⟩
      rw [sdata_append, sdata_append, List.reverse_append, List.reverse_append, hr]
      rw [show ("." : String).data = ['.'] from rfl]
      simp

theorem splitDotAux_no_dot (l : List Char) (hl : ∀ c ∈ l, (c == '.') = false) :
    ∀ acc : List Char, splitDotAux l acc = [⟨acc.reverse ++ l⟩] := by
  induction l with
  | nil =>
    intro acc
    rw [splitDotAux]
    simp
  | cons c rest ih =>
    intro acc
    have hc := hl c (List.mem_cons_self c rest)
    rw [splitDotAux, if_neg (by rw [hc]; simp)]
    rw [ih (fun c2 hc2 => hl c2 (List.mem_cons_of_mem c hc2)) (c :: acc)]
    congr 1
    apply string_ext
    show (c :: acc).reverse ++ rest = acc.reverse ++ (c :: rest)
    rw [List.reverse_cons, List.append_assoc]
    rfl

theorem splitDotAux_split (l : List Char) (hl : ∀ c ∈ l, (c == '.') = false) (r : List Char) :
    ∀ acc : List Char, splitDotAux (l ++ '.' :: r) acc = ⟨acc.reverse ++ l⟩ :: splitDotAux r [] := by
  induction l with
  | nil =>
    intro acc
    rw [List.nil_append, splitDotAux, if_pos (by simp)]
    simp
  | cons c rest ih =>
    intro acc
    have hc := hl c (List.mem_cons_self c rest)
    rw [List.cons_append, splitDotAux, if_neg (by rw [hc]; simp)]
    rw [ih (fun c2 hc2 => hl c2 (List.mem_cons_of_mem c hc2)) (c :: acc)]
    have hlist : (c :: acc).reverse ++ rest = acc.reverse ++ (c :: rest) := by
      rw [List.reverse_cons, List.append_assoc]
      rfl
    rw [hlist]

theorem splitDot_dotJoin (P : List String) (hP : ∀ s ∈ P, goodKey s = true) (hne : P ≠ []) :
    splitDot (dotJoin P) = P := by
  induction P with
  | nil => exact absurd rfl hne
  | cons p ps ih =>
    have hp := hP p (List.mem_cons_self p ps)
    obtain ⟨-, hpdot⟩ := goodKey_spec p hp
    cases ps with
    | nil =>
      rw [dotJoin_single, splitDot, splitDotAux_no_dot p.data hpdot []]
      simp [string_eta]
    | cons q qs =>
      have hdata : (dotJoin (p :: q :: qs)).data = p.data ++ '.' :: (dotJoin (q :: qs)).data := by
        rw [dotJoin_cons_cons, sdata_append, sdata_append]
        simp
      rw [splitDot, hdata, splitDotAux_split p.data hpdot _ []]
      have ihq := ih (fun s hs => hP s (List.mem_cons_of_mem p hs)) (by simp)
      rw [splitDot] at ihq
      rw [ihq]
      simp [string_eta]

theorem dotJoin_inj (P Q : List String)
    (hP : ∀ s ∈ P, goodKey s = true) (hQ : ∀ s ∈ Q, goodKey s = true)
    (hPne : P ≠ []) (hQne : Q ≠ []) (h : dotJoin P = dotJoin Q) : P = Q := by
  rw [← splitDot_dotJoin P hP hPne, h, splitDot_dotJoin Q hQ hQne]

/-! ## Claim C1: dict-level lemmas -/

theorem containsKey_eq_false_iff (d : Obj) (k : String) :
    containsKey d k = false ↔ dget? d k = none := by
  rw [containsKey]
  cases dget? d k <;> simp

theorem dset_append_of_not_contains (d : Obj) (k : String) (v : JVal)
    (h : containsKey d k = false) : dset d k v = d ++ [(k, v)] := by
  induction d with
  | nil => rfl
  | cons kv rest ih =>
    obtain ⟨k', v'⟩ := kv
    rw [containsKey_eq_false_iff, dget?] at h
    by_cases hk : k' = k
    · rw [if_pos hk] at h
      exact absurd h (by simp)
    · rw [if_neg hk] at h
      rw [dset, if_neg hk, List.cons_append]
      rw [ih ((containsKey_eq_false_iff rest k).mpr h)]

theorem dget?_append (a b : Obj) (k : String) :
    dget? (a ++ b) k =
      (match dget? a k with
       | some v => some v
       | none => dget? b k) := by
  induction a with
  | nil => simp [dget?]
  | cons kv rest ih =>
    obtain ⟨k', v'⟩ := kv
    by_cases hk : k' = k
    · rw [List.cons_append, dget?, if_pos hk, dget?, if_pos hk]
    · rw [List.cons_append, dget?, if_neg hk, dget?, if_neg hk, ih]

theorem containsKey_append (a b : Obj) (k : String) :
    containsKey (a ++ b) k = (containsKey a k || containsKey b k) := by
  rw [containsKey, containsKey, containsKey, dget?_append]
  cases dget? a k <;> simp

theorem dictUpdate_append (e : Obj) :
    ∀ d : Obj, List.Nodup (e.map Prod.fst) → (∀ kv ∈ e, containsKey d kv.1 = false) →
      dictUpdate d e = d ++ e := by
  induction e with
  | nil => intro d _ _; simp [dictUpdate]
  | cons kv rest ih =>
    intro d hnd hc
    obtain ⟨k, v⟩ := kv
    have hnd2 : List.Nodup (k :: rest.map Prod.fst) := by simpa using hnd
    have h1 : dset d k v = d ++ [(k, v)] :=
      dset_append_of_not_contains d k v (hc (k, v) (List.mem_cons_self _ _))
    have h2 : dictUpdate (d ++ [(k, v)]) rest = (d ++ [(k, v)]) ++ rest := by
      apply ih
      · exact (List.nodup_cons.mp hnd2).2
      · intro kv2 hkv2
        rw [containsKey_append]
        have hd : containsKey d kv2.1 = false := hc kv2 (List.mem_cons_of_mem _ hkv2)
        have hk2 : kv2.1 ≠ k := by
          intro he
          have hmem : k ∈ rest.map Prod.fst := by
            rw [← he]
            exact List.mem_map_of_mem Prod.fst hkv2
          exact (List.nodup_cons.mp hnd2).1 hmem
        have hone : containsKey [(k, v)] kv2.1 = false := by
          rw [containsKey_eq_false_iff, dget?, if_neg (fun h => hk2 h.symm)]
          rfl
        rw [hd, hone]
        rfl
    have hstep : rest.foldl (fun acc kv2 => dset acc kv2.1 kv2.2) (dset d k v) =
        dictUpdate (dset d k v) rest := rfl
    rw [dictUpdate, List.foldl_cons, hstep, h1, h2]
    simp

theorem dset_append_last (a : Obj) (k : String) (x v : JVal)
    (h : containsKey a k = false) : dset (a ++ [(k, x)]) k v = a ++ [(k, v)] := by
  induction a with
  | nil => simp [dset]
  | cons kv rest ih =>
    obtain ⟨k', v'⟩ := kv
    rw [containsKey_eq_false_iff, dget?] at h
    by_cases hk : k' = k
    · rw [if_pos hk] at h
      exact absurd h (by simp)
    · rw [if_neg hk] at h
      rw [List.cons_append, dset, if_neg hk, List.cons_append,
        ih ((containsKey_eq_false_iff rest k).mpr h)]

theorem dset_eq_self_of_get (d : Obj) (k : String) (v : JVal)
    (h : dget? d k = some v) : dset d k v = d := by
  induction d with
  | nil => simp [dget?] at h
  | cons kv rest ih =>
    obtain ⟨k', v'⟩ := kv
    rw [dget?] at h
    by_cases hk : k' = k
    · rw [if_pos hk] at h
      rw [dset, if_pos hk]
      cases h
      rfl
    · rw [if_neg hk] at h
      rw [dset, if_neg hk, ih h]

theorem dset_dset (d : Obj) (k : String) (a b : JVal) :
    dset (dset d k a) k b = dset d k b := by
  induction d with
  | nil => simp [dset]
  | cons kv rest ih =>
    obtain ⟨k', v'⟩ := kv
    by_cases hk : k' = k
    · simp [dset, hk]
    · simp [dset, hk, ih]

theorem ne_key_of_not_contains (d : Obj) (k : String)
    (h : containsKey d k = false) : ∀ kv ∈ d, kv.1 ≠ k := by
  intro kv hkv he
  have : containsKey d k = true := by
    rw [containsKey_iff_mem_keys]
    rw [← he]
    exact List.mem_map_of_mem Prod.fst hkv
  rw [h] at this
  exact Bool.false_ne_true this


/-! ## Claim C1: leaf-path structure of nested dicts -/

theorem cons_head_eq {α : Type} {a b : α} {s t : List α} (h : a :: s = b :: t) : a = b := by
  have h2 : (a :: s).head? = (b :: t).head? := congrArg List.head? h
  simp only [List.head?] at h2
  exact Option.some.inj h2

theorem cons_tail_eq {α : Type} {a b : α} {s t : List α} (h : a :: s = b :: t) : s = t := by
  have h2 : (a :: s).tail = (b :: t).tail := congrArg List.tail h
  simpa using h2

theorem goodObj_cons (k : String) (v : JVal) (rest : Obj)
    (h : goodObj ((k, v) :: rest) = true) :
    goodKey k = true ∧ containsKey rest k = false ∧
      (∀ m, v = JVal.obj m → (m.isEmpty = false ∧ goodObj m = true)) ∧
      goodVal v = true ∧ goodObj rest = true := by
  cases v
  case obj m' =>
    simp only [goodObj, Bool.and_eq_true] at h
    obtain ⟨⟨⟨⟨h1, h2⟩, h3⟩, h4⟩, h5⟩ := h
    refine ⟨h1, by simpa using h2, ?_, h4, h5⟩
    intro m hm
    have hmm : m' = m := JVal.obj.inj hm
    subst hmm
    constructor
    · simpa using h3
    · simpa [goodVal] using h4
  all_goals
    simp only [goodObj, Bool.and_eq_true] at h
  all_goals
    obtain ⟨⟨⟨⟨h1, h2⟩, h3⟩, h4⟩, h5⟩ := h
  all_goals
    exact ⟨h1, by simpa using h2, fun m hm => by simp at hm, h4, h5⟩

theorem containsKey_cons_self (k : String) (v : JVal) (rest : Obj) :
    containsKey ((k, v) :: rest) k = true := by
  rw [containsKey, dget?, if_pos rfl]
  rfl

theorem containsKey_cons_of (k k' : String) (v : JVal) (rest : Obj)
    (h : containsKey rest k = true) : containsKey ((k', v) :: rest) k = true := by
  rw [containsKey, dget?]
  by_cases hk : k' = k
  · rw [if_pos hk]
    rfl
  · rw [if_neg hk]
    exact h

theorem pathsO_head : ∀ (m : Obj) (pv : List String × JVal), pv ∈ pathsO m →
    ∃ k t, pv.1 = k :: t ∧ containsKey m k = true := by
  intro m
  induction m with
  | nil =>
    intro pv h
    rw [show pathsO [] = [] from by simp only [pathsO]] at h
    exact absurd h (List.not_mem_nil pv)
  | cons kv rest ih =>
    obtain ⟨k, v⟩ := kv
    intro pv h
    cases v
    case obj m' =>
      rw [show pathsO ((k, JVal.obj m') :: rest) =
          ((pathsO m').map (fun pv => (k :: pv.1, pv.2))) ++ pathsO rest
        from by simp only [pathsO]] at h
      rcases List.mem_append.mp h with hl | hr
      · obtain ⟨pv', hpv', he⟩ := List.mem_map.mp hl
        refine ⟨k, pv'.1, ?_, containsKey_cons_self k (JVal.obj m') rest⟩
        rw [← he]
      · obtain ⟨k2, t, ht, hc⟩ := ih pv hr
        exact ⟨k2, t, ht, containsKey_cons_of k2 k (JVal.obj m') rest hc⟩
    case null =>
      rw [show pathsO ((k, JVal.null) :: rest) = ([k], JVal.null) :: pathsO rest
        from by simp only [pathsO]] at h
      rcases List.mem_cons.mp h with he | hr
      · refine ⟨k, [], ?_, containsKey_cons_self k JVal.null rest⟩
        rw [he]
      · obtain ⟨k2, t, ht, hc⟩ := ih pv hr
        exact ⟨k2, t, ht, containsKey_cons_of k2 k JVal.null rest hc⟩
    case bool b =>
      rw [show pathsO ((k, (JVal.bool b)) :: rest) = ([k], (JVal.bool b)) :: pathsO rest
        from by simp only [pathsO]] at h
      rcases List.mem_cons.mp h with he | hr
      · refine ⟨k, [], ?_, containsKey_cons_self k (JVal.bool b) rest⟩
        rw [he]
      · obtain ⟨k2, t, ht, hc⟩ := ih pv hr
        exact ⟨k2, t, ht, containsKey_cons_of k2 k (JVal.bool b) rest hc⟩
    case int i =>
      rw [show pathsO ((k, (JVal.int i)) :: rest) = ([k], (JVal.int i)) :: pathsO rest
        from by simp only [pathsO]] at h
      rcases List.mem_cons.mp h with he | hr
      · refine ⟨k, [], ?_, containsKey_cons_self k (JVal.int i) rest⟩
        rw [he]
      · obtain ⟨k2, t, ht, hc⟩ := ih pv hr
        exact ⟨k2, t, ht, containsKey_cons_of k2 k (JVal.int i) rest hc⟩
    case str s2 =>
      rw [show pathsO ((k, (JVal.str s2)) :: rest) = ([k], (JVal.str s2)) :: pathsO rest
        from by simp only [pathsO]] at h
      rcases List.mem_cons.mp h with he | hr
      · refine ⟨k, [], ?_, containsKey_cons_self k (JVal.str s2) rest⟩
        rw [he]
      · obtain ⟨k2, t, ht, hc⟩ := ih pv hr
        exact ⟨k2, t, ht, containsKey_cons_of k2 k (JVal.str s2) rest hc⟩
    case date e o =>
      rw [show pathsO ((k, (JVal.date e o)) :: rest) = ([k], (JVal.date e o)) :: pathsO rest
        from by simp only [pathsO]] at h
      rcases List.mem_cons.mp h with he | hr
      · refine ⟨k, [], ?_, containsKey_cons_self k (JVal.date e o) rest⟩
        rw [he]
      · obtain ⟨k2, t, ht, hc⟩ := ih pv hr
        exact ⟨k2, t, ht, containsKey_cons_of k2 k (JVal.date e o) rest hc⟩
    case arr l =>
      rw [show pathsO ((k, (JVal.arr l)) :: rest) = ([k], (JVal.arr l)) :: pathsO rest
        from by simp only [pathsO]] at h
      rcases List.mem_cons.mp h with he | hr
      · refine ⟨k, [], ?_, containsKey_cons_self k (JVal.arr l) rest⟩
        rw [he]
      · obtain ⟨k2, t, ht, hc⟩ := ih pv hr
        exact ⟨k2, t, ht, containsKey_cons_of k2 k (JVal.arr l) rest hc⟩

theorem pathsO_scalar_step (k : String) (v : JVal) (rest : Obj)
    (hps : pathsO ((k, v) :: rest) = ([k], v) :: pathsO rest)
    (hk : goodKey k = true) (hck : containsKey rest k = false)
    (hgood_rest : ∀ pv ∈ pathsO rest, pv.1 ≠ [] ∧ ∀ s ∈ pv.1, goodKey s = true)
    (hnodup_rest : List.Nodup ((pathsO rest).map Prod.fst)) :
    ((∀ pv ∈ pathsO ((k, v) :: rest), pv.1 ≠ [] ∧ ∀ s ∈ pv.1, goodKey s = true) ∧
      List.Nodup ((pathsO ((k, v) :: rest)).map Prod.fst) ∧
      ((k, v) :: rest ≠ [] → pathsO ((k, v) :: rest) ≠ [])) := by
  refine ⟨?_, ?_, ?_⟩
  · intro pv hpv
    rw [hps] at hpv
    rcases List.mem_cons.mp hpv with he | hr
    · subst he
      refine ⟨?_, ?_⟩
      · intro hx
        have hx2 : [k] = ([] : List String) := hx
        exact List.noConfusion hx2
      · intro s hs
        have hs2 : s ∈ [k] := hs
        rw [List.mem_singleton] at hs2
        subst hs2
        exact hk
    · exact hgood_rest pv hr
  · rw [hps, List.map_cons, List.nodup_cons]
    constructor
    · intro hmem
      obtain ⟨pv2, hpv2, he2⟩ := List.mem_map.mp hmem
      obtain ⟨k2, t, ht, hc⟩ := pathsO_head rest pv2 hpv2
      rw [ht] at he2
      have he4 : k2 :: t = [k] := he2
      have hkk : k2 = k := cons_head_eq he4
      rw [hkk] at hc
      rw [hck] at hc
      exact Bool.false_ne_true hc
    · exact hnodup_rest
  · intro hne
    rw [hps]
    intro hx
    exact List.noConfusion hx

theorem pathsO_props : ∀ n : Nat, ∀ m : Obj, sizeOf m ≤ n → goodObj m = true →
    ((∀ pv ∈ pathsO m, pv.1 ≠ [] ∧ ∀ s ∈ pv.1, goodKey s = true) ∧
      List.Nodup ((pathsO m).map Prod.fst) ∧
      (m ≠ [] → pathsO m ≠ [])) := by
  intro n
  induction n with
  | zero =>
    intro m hm
    exfalso
    cases m with
    | nil => simp only [List.nil.sizeOf_spec] at hm; omega
    | cons kv rest => simp only [List.cons.sizeOf_spec] at hm; omega
  | succ n ih =>
    intro m hm hg
    cases m with
    | nil =>
      refine ⟨?_, ?_, ?_⟩
      · intro pv hpv
        rw [show pathsO [] = [] from by simp only [pathsO]] at hpv
        exact absurd hpv (List.not_mem_nil pv)
      · rw [show pathsO [] = [] from by simp only [pathsO]]
        exact List.nodup_nil
      · intro hx
        exact absurd rfl hx
    | cons kv rest =>
      obtain ⟨k, v⟩ := kv
      obtain ⟨hk, hck, hobj, hv, hrest⟩ := goodObj_cons k v rest hg
      have hszrest : sizeOf rest ≤ n := by
        simp only [List.cons.sizeOf_spec, Prod.mk.sizeOf_spec] at hm
        omega
      obtain ⟨hgood_rest, hnodup_rest, -⟩ := ih rest hszrest hrest
      cases v
      case obj m' =>
        have hm'g : goodObj m' = true := (hobj m' rfl).2
        have hm'ne : m' ≠ [] := by
          have h1 := (hobj m' rfl).1
          intro he
          rw [he] at h1
          simp at h1
        have hszm' : sizeOf m' ≤ n := by
          simp only [List.cons.sizeOf_spec, Prod.mk.sizeOf_spec, JVal.obj.sizeOf_spec] at hm
          omega
        obtain ⟨hgood', hnodup', hnenil'⟩ := ih m' hszm' hm'g
        have hps : pathsO ((k, JVal.obj m') :: rest) =
            ((pathsO m').map (fun pv => (k :: pv.1, pv.2))) ++ pathsO rest := by
          simp only [pathsO]
        refine ⟨?_, ?_, ?_⟩
        · intro pv hpv
          rw [hps] at hpv
          rcases List.mem_append.mp hpv with hl | hr
          · obtain ⟨pv2, hpv2, he⟩ := List.mem_map.mp hl
            obtain ⟨hne2, hgood2⟩ := hgood' pv2 hpv2
            rw [← he]
            refine ⟨?_, ?_⟩
            · intro hx
              have hx2 : k :: pv2.1 = ([] : List String) := hx
              exact List.noConfusion hx2
            · intro s hs
              have hs2 : s ∈ k :: pv2.1 := hs
              rcases List.mem_cons.mp hs2 with he2 | hs3
              · subst he2
                exact hk
              · exact hgood2 s hs3
          · exact hgood_rest pv hr
        · rw [hps, List.map_append]
          have hmap1 : ((pathsO m').map (fun pv => (k :: pv.1, pv.2))).map Prod.fst =
              ((pathsO m').map Prod.fst).map (fun p => k :: p) := by
            rw [List.map_map, List.map_map]
            rfl
          rw [hmap1]
          apply List.Nodup.append
          · exact List.Nodup.map (fun a b hab => cons_tail_eq hab) hnodup'
          · exact hnodup_rest
          · intro p hp1 hp2
            obtain ⟨p2, hp2m, he1⟩ := List.mem_map.mp hp1
            obtain ⟨pv3, hpv3, he3⟩ := List.mem_map.mp hp2
            obtain ⟨k2, t, ht, hc⟩ := pathsO_head rest pv3 hpv3
            rw [← he1] at he3
            rw [ht] at he3
            have he4 : k2 :: t = k :: p2 := he3
            have hkk : k2 = k := cons_head_eq he4
            rw [hkk] at hc
            rw [hck] at hc
            exact Bool.false_ne_true hc
        · intro hne
          rw [hps]
          intro hx
          rcases List.append_eq_nil.mp hx with ⟨h1, -⟩
          rw [List.map_eq_nil_iff] at h1
          exact hnenil' hm'ne h1
      case null =>
        exact pathsO_scalar_step k JVal.null rest (by simp only [pathsO]) hk hck
          hgood_rest hnodup_rest
      case bool b =>
        exact pathsO_scalar_step k (JVal.bool b) rest (by simp only [pathsO]) hk hck
          hgood_rest hnodup_rest
      case int i =>
        exact pathsO_scalar_step k (JVal.int i) rest (by simp only [pathsO]) hk hck
          hgood_rest hnodup_rest
      case str s2 =>
        exact pathsO_scalar_step k (JVal.str s2) rest (by simp only [pathsO]) hk hck
          hgood_rest hnodup_rest
      case date e o =>
        exact pathsO_scalar_step k (JVal.date e o) rest (by simp only [pathsO]) hk hck
          hgood_rest hnodup_rest
      case arr l =>
        exact pathsO_scalar_step k (JVal.arr l) rest (by simp only [pathsO]) hk hck
          hgood_rest hnodup_rest

theorem pathsO_props_all (m : Obj) (hg : goodObj m = true) :
    ((∀ pv ∈ pathsO m, pv.1 ≠ [] ∧ ∀ s ∈ pv.1, goodKey s = true) ∧
      List.Nodup ((pathsO m).map Prod.fst) ∧
      (m ≠ [] → pathsO m ≠ [])) :=
  pathsO_props (sizeOf m) m le_rfl hg

/-! ## Claim C1: `flatten_dict` computes the dot-joined leaf paths -/

theorem nodup_subtree_keys (P : List String) (k : String) (m' : Obj)
    (hP : ∀ s ∈ P, goodKey s = true) (hk : goodKey k = true)
    (hgood' : ∀ pv ∈ pathsO m', pv.1 ≠ [] ∧ ∀ s ∈ pv.1, goodKey s = true)
    (hnodup' : List.Nodup ((pathsO m').map Prod.fst)) :
    List.Nodup (((pathsO m').map
      (fun pv => (dotJoin ((P ++ [k]) ++ pv.1), flatVal pv.2))).map Prod.fst) := by
  have hmm : ((pathsO m').map
        (fun pv => (dotJoin ((P ++ [k]) ++ pv.1), flatVal pv.2))).map Prod.fst =
      ((pathsO m').map Prod.fst).map (fun p => dotJoin ((P ++ [k]) ++ p)) := by
    rw [List.map_map, List.map_map]
    rfl
  rw [hmm]
  have hPk : ∀ s ∈ P ++ [k], goodKey s = true := by
    intro s hs
    rcases List.mem_append.mp hs with h | h
    · exact hP s h
    · rw [List.mem_singleton] at h
      subst h
      exact hk
  refine List.Nodup.map_on ?_ hnodup'
  intro p1 hp1 p2 hp2 he
  obtain ⟨pv1, hpv1, he1⟩ := List.mem_map.mp hp1
  obtain ⟨pv2, hpv2, he2⟩ := List.mem_map.mp hp2
  subst he1
  subst he2
  have hg1 := hgood' pv1 hpv1
  have hg2 := hgood' pv2 hpv2
  have hq1 : ∀ s ∈ (P ++ [k]) ++ pv1.1, goodKey s = true := by
    intro s hs
    rcases List.mem_append.mp hs with h | h
    · exact hPk s h
    · exact hg1.2 s h
  have hq2 : ∀ s ∈ (P ++ [k]) ++ pv2.1, goodKey s = true := by
    intro s hs
    rcases List.mem_append.mp hs with h | h
    · exact hPk s h
    · exact hg2.2 s h
  have h3 := dotJoin_inj ((P ++ [k]) ++ pv1.1) ((P ++ [k]) ++ pv2.1) hq1 hq2
    (by simp) (by simp) he
  exact List.append_cancel_left h3

theorem not_contains_subtree_keys (P : List String) (k : String) (m' rest : Obj)
    (pv : List String × JVal)
    (hP : ∀ s ∈ P, goodKey s = true) (hk : goodKey k = true)
    (hck : containsKey rest k = false)
    (hgood' : ∀ pv2 ∈ pathsO m', pv2.1 ≠ [] ∧ ∀ s ∈ pv2.1, goodKey s = true)
    (hgoodr : ∀ pv2 ∈ pathsO rest, pv2.1 ≠ [] ∧ ∀ s ∈ pv2.1, goodKey s = true)
    (hpv : pv ∈ pathsO rest) :
    containsKey ((pathsO m').map (fun pv2 => (dotJoin ((P ++ [k]) ++ pv2.1), flatVal pv2.2)))
      (dotJoin (P ++ pv.1)) = false := by
  have hPk : ∀ s ∈ P ++ [k], goodKey s = true := by
    intro s hs
    rcases List.mem_append.mp hs with h | h
    · exact hP s h
    · rw [List.mem_singleton] at h
      subst h
      exact hk
  cases hc : containsKey ((pathsO m').map
      (fun pv2 => (dotJoin ((P ++ [k]) ++ pv2.1), flatVal pv2.2)))
      (dotJoin (P ++ pv.1)) with
  | false => rfl
  | true =>
    exfalso
    rw [containsKey_iff_mem_keys] at hc
    obtain ⟨a, ha, hea⟩ := List.mem_map.mp hc
    obtain ⟨pv2, hpv2, he2⟩ := List.mem_map.mp ha
    rw [← he2] at hea
    have hea2 : dotJoin ((P ++ [k]) ++ pv2.1) = dotJoin (P ++ pv.1) := hea
    have hq1 : ∀ s ∈ (P ++ [k]) ++ pv2.1, goodKey s = true := by
      intro s hs
      rcases List.mem_append.mp hs with h | h
      · exact hPk s h
      · exact (hgood' pv2 hpv2).2 s h
    have hq2 : ∀ s ∈ P ++ pv.1, goodKey s = true := by
      intro s hs
      rcases List.mem_append.mp hs with h | h
      · exact hP s h
      · exact (hgoodr pv hpv).2 s h
    have h3 := dotJoin_inj ((P ++ [k]) ++ pv2.1) (P ++ pv.1) hq1 hq2
      (by simp) (fun hh => (hgoodr pv hpv).1 (List.append_eq_nil.mp hh).2) hea2
    rw [List.append_assoc] at h3
    have h4 := List.append_cancel_left h3
    obtain ⟨k2, t, ht, hcr⟩ := pathsO_head rest pv hpv
    rw [ht] at h4
    have h5 : k :: pv2.1 = k2 :: t := h4
    have hkk : k = k2 := cons_head_eq h5
    rw [← hkk] at hcr
    rw [hck] at hcr
    exact Bool.false_ne_true hcr

theorem flattenItems_step_nonobj (k : String) (v : JVal) (rest : Obj) (P : List String)
    (ret : Obj)
    (heq : flattenItems ((k, v) :: rest) (dotJoin P) ret =
      flattenItems rest (dotJoin P) (dset ret (stripDots (dotJoin P ++ "." ++ k)) (flatVal v)))
    (hps : pathsO ((k, v) :: rest) = ([k], v) :: pathsO rest)
    (hk : goodKey k = true) (hck : containsKey rest k = false)
    (hP : ∀ s ∈ P, goodKey s = true)
    (hgood_rest : ∀ pv ∈ pathsO rest, pv.1 ≠ [] ∧ ∀ s ∈ pv.1, goodKey s = true)
    (hfresh : ∀ pv ∈ pathsO ((k, v) :: rest), containsKey ret (dotJoin (P ++ pv.1)) = false)
    (ih : ∀ ret2 : Obj, (∀ pv ∈ pathsO rest, containsKey ret2 (dotJoin (P ++ pv.1)) = false) →
      flattenItems rest (dotJoin P) ret2 =
        ret2 ++ (pathsO rest).map (fun pv => (dotJoin (P ++ pv.1), flatVal pv.2))) :
    flattenItems ((k, v) :: rest) (dotJoin P) ret =
      ret ++ (pathsO ((k, v) :: rest)).map (fun pv => (dotJoin (P ++ pv.1), flatVal pv.2)) := by
  have hfr0 : containsKey ret (dotJoin (P ++ [k])) = false := by
    have h := hfresh ([k], v) (by rw [hps]; exact List.mem_cons_self _ _)
    exact h
  have hPk : ∀ s ∈ P ++ [k], goodKey s = true := by
    intro s hs
    rcases List.mem_append.mp hs with h | h
    · exact hP s h
    · rw [List.mem_singleton] at h
      subst h
      exact hk
  rw [heq, stripDots_dotJoin_key P k hP hk, dset_append_of_not_contains ret _ _ hfr0]
  rw [ih (ret ++ [(dotJoin (P ++ [k]), flatVal v)]) ?fr]
  · simp only [hps, List.map_cons, List.append_assoc, List.singleton_append]
  case fr =>
    intro pv hpv
    rw [containsKey_append]
    have h1 : containsKey ret (dotJoin (P ++ pv.1)) = false :=
      hfresh pv (by rw [hps]; exact List.mem_cons_of_mem _ hpv)
    have hneq : ¬ (dotJoin (P ++ [k]) = dotJoin (P ++ pv.1)) := by
      intro he
      obtain ⟨hne1, hgood1⟩ := hgood_rest pv hpv
      have hPpv : ∀ s ∈ P ++ pv.1, goodKey s = true := by
        intro s hs
        rcases List.mem_append.mp hs with h | h
        · exact hP s h
        · exact hgood1 s h
      have heq2 := dotJoin_inj (P ++ [k]) (P ++ pv.1) hPk hPpv
        (by simp) (fun hh => hne1 (List.append_eq_nil.mp hh).2) he
      have h3 := List.append_cancel_left heq2
      obtain ⟨k2, t, ht, hc⟩ := pathsO_head rest pv hpv
      rw [ht] at h3
      have h5 : k :: [] = k2 :: t := h3
      have hkk : k = k2 := cons_head_eq h5
      rw [← hkk] at hc
      rw [hck] at hc
      exact Bool.false_ne_true hc
    have h2 : containsKey [(dotJoin (P ++ [k]), flatVal v)] (dotJoin (P ++ pv.1)) = false := by
      rw [containsKey_eq_false_iff, dget?, if_neg hneq]
      rfl
    rw [h1, h2]
    rfl

theorem flattenItems_eq_aux : ∀ n : Nat, ∀ m : Obj, sizeOf m ≤ n → goodObj m = true →
    ∀ (P : List String) (ret : Obj), (∀ s ∈ P, goodKey s = true) →
    (∀ pv ∈ pathsO m, containsKey ret (dotJoin (P ++ pv.1)) = false) →
    flattenItems m (dotJoin P) ret =
      ret ++ (pathsO m).map (fun pv => (dotJoin (P ++ pv.1), flatVal pv.2)) := by
  intro n
  induction n with
  | zero =>
    intro m hm
    exfalso
    cases m with
    | nil => simp only [List.nil.sizeOf_spec] at hm; omega
    | cons kv rest => simp only [List.cons.sizeOf_spec] at hm; omega
  | succ n ih =>
    intro m hm hg P ret hP hfresh
    cases m with
    | nil =>
      simp only [flattenItems, pathsO, List.map_nil, List.append_nil]
    | cons kv rest =>
      obtain ⟨k, v⟩ := kv
      obtain ⟨hk, hck, hobj, hv, hrest⟩ := goodObj_cons k v rest hg
      have hszrest : sizeOf rest ≤ n := by
        simp only [List.cons.sizeOf_spec, Prod.mk.sizeOf_spec] at hm
        omega
      have ihrest : ∀ ret2 : Obj,
          (∀ pv ∈ pathsO rest, containsKey ret2 (dotJoin (P ++ pv.1)) = false) →
          flattenItems rest (dotJoin P) ret2 =
            ret2 ++ (pathsO rest).map (fun pv => (dotJoin (P ++ pv.1), flatVal pv.2)) :=
        fun ret2 hf => ih rest hszrest hrest P ret2 hP hf
      obtain ⟨hgoodr, -, -⟩ := pathsO_props_all rest hrest
      cases v
      case obj m' =>
        have hm'g : goodObj m' = true := (hobj m' rfl).2
        have hszm' : sizeOf m' ≤ n := by
          simp only [List.cons.sizeOf_spec, Prod.mk.sizeOf_spec, JVal.obj.sizeOf_spec] at hm
          omega
        obtain ⟨hgood', hnodup', -⟩ := pathsO_props_all m' hm'g
        have hPk : ∀ s ∈ P ++ [k], goodKey s = true := by
          intro s hs
          rcases List.mem_append.mp hs with h | h
          · exact hP s h
          · rw [List.mem_singleton] at h
            subst h
            exact hk
        have heq : flattenItems ((k, JVal.obj m') :: rest) (dotJoin P) ret =
            flattenItems rest (dotJoin P)
              (dictUpdate ret (flatten_dict m' (stripDots (dotJoin P ++ "." ++ k)))) := by
          simp only [flattenItems]
        have hps : pathsO ((k, JVal.obj m') :: rest) =
            ((pathsO m').map (fun pv => (k :: pv.1, pv.2))) ++ pathsO rest := by
          simp only [pathsO]
        have hflat : flatten_dict m' (dotJoin (P ++ [k])) =
            (pathsO m').map (fun pv => (dotJoin ((P ++ [k]) ++ pv.1), flatVal pv.2)) := by
          have h0 : flatten_dict m' (dotJoin (P ++ [k])) =
              flattenItems m' (dotJoin (P ++ [k])) [] := by
            simp only [flatten_dict]
          rw [h0, ih m' hszm' hm'g (P ++ [k]) [] hPk (fun pv _ => rfl), List.nil_append]
        have hupd : dictUpdate ret
              ((pathsO m').map (fun pv => (dotJoin ((P ++ [k]) ++ pv.1), flatVal pv.2))) =
            ret ++ (pathsO m').map (fun pv => (dotJoin ((P ++ [k]) ++ pv.1), flatVal pv.2)) := by
          apply dictUpdate_append
          · exact nodup_subtree_keys P k m' hP hk hgood' hnodup'
          · intro kv hkv
            obtain ⟨pv, hpv, he⟩ := List.mem_map.mp hkv
            rw [← he]
            show containsKey ret (dotJoin ((P ++ [k]) ++ pv.1)) = false
            have hassoc : (P ++ [k]) ++ pv.1 = P ++ (k :: pv.1) := by
              simp only [List.append_assoc, List.singleton_append]
            rw [hassoc]
            exact hfresh (k :: pv.1, pv.2)
              (by rw [hps]; exact List.mem_append_left _ (List.mem_map_of_mem _ hpv))
        rw [heq, stripDots_dotJoin_key P k hP hk, hflat, hupd]
        rw [ih rest hszrest hrest P
          (ret ++ (pathsO m').map (fun pv => (dotJoin ((P ++ [k]) ++ pv.1), flatVal pv.2)))
          hP ?fr2]
        · have hAeq : (pathsO m').map
              (fun pv => (dotJoin ((P ++ [k]) ++ pv.1), flatVal pv.2)) =
              ((pathsO m').map (fun pv => (k :: pv.1, pv.2))).map
                (fun pv => (dotJoin (P ++ pv.1), flatVal pv.2)) := by
            rw [List.map_map]
            apply List.map_congr_left
            intro pv hmem
            show (dotJoin ((P ++ [k]) ++ pv.1), flatVal pv.2) =
              (dotJoin (P ++ (k :: pv.1)), flatVal pv.2)
            have hassoc : (P ++ [k]) ++ pv.1 = P ++ (k :: pv.1) := by
              simp only [List.append_assoc, List.singleton_append]
            rw [hassoc]
          rw [hps, List.map_append, List.append_assoc, hAeq]
        case fr2 =>
          intro pv hpv
          rw [containsKey_append]
          have h1 : containsKey ret (dotJoin (P ++ pv.1)) = false :=
            hfresh pv (by rw [hps]; exact List.mem_append_right _ hpv)
          have h2 := not_contains_subtree_keys P k m' rest pv hP hk hck hgood' hgoodr hpv
          rw [h1, h2]
          rfl
      case null =>
        exact flattenItems_step_nonobj k JVal.null rest P ret
          (by simp only [flattenItems, flatVal]) (by simp only [pathsO]) hk hck hP hgoodr
          hfresh ihrest
      case bool b =>
        exact flattenItems_step_nonobj k (JVal.bool b) rest P ret
          (by simp only [flattenItems, flatVal]) (by simp only [pathsO]) hk hck hP hgoodr
          hfresh ihrest
      case int i =>
        exact flattenItems_step_nonobj k (JVal.int i) rest P ret
          (by simp only [flattenItems, flatVal]) (by simp only [pathsO]) hk hck hP hgoodr
          hfresh ihrest
      case str s2 =>
        exact flattenItems_step_nonobj k (JVal.str s2) rest P ret
          (by simp only [flattenItems, flatVal]) (by simp only [pathsO]) hk hck hP hgoodr
          hfresh ihrest
      case date e o =>
        exact flattenItems_step_nonobj k (JVal.date e o) rest P ret
          (by simp only [flattenItems, flatVal]) (by simp only [pathsO]) hk hck hP hgoodr
          hfresh ihrest
      case arr l =>
        exact flattenItems_step_nonobj k (JVal.arr l) rest P ret
          (by simp only [flattenItems, flatVal]) (by simp only [pathsO]) hk hck hP hgoodr
          hfresh ihrest

theorem flattenItems_eq (m : Obj) (P : List String) (ret : Obj) (hg : goodObj m = true)
    (hP : ∀ s ∈ P, goodKey s = true)
    (hfresh : ∀ pv ∈ pathsO m, containsKey ret (dotJoin (P ++ pv.1)) = false) :
    flattenItems m (dotJoin P) ret =
      ret ++ (pathsO m).map (fun pv => (dotJoin (P ++ pv.1), flatVal pv.2)) :=
  flattenItems_eq_aux (sizeOf m) m le_rfl hg P ret hP hfresh

/-! ## Claim C1: the `unflatten_dict` loop rebuilds the dict from its leaf paths -/

theorem foldSetU_cons (out : Obj) (pv : List String × JVal) (L : List (List String × JVal)) :
    foldSetU out (pv :: L) =
      (match unflattenVal pv.2 with
       | Except.ok v2 =>
         (match setNested out pv.1 v2 with
          | some out2 => foldSetU out2 L
          | none => Except.error (UnflattenError.structureConflict (dotJoin pv.1)))
       | Except.error e => Except.error e) := by
  obtain ⟨p, v⟩ := pv
  cases hv : unflattenVal v with
  | ok v2 => simp only [foldSetU, hv, except_bind_ok]
  | error e => simp only [foldSetU, hv, except_bind_error]

theorem foldSetU_append : ∀ (A B : List (List String × JVal)) (out : Obj),
    foldSetU out (A ++ B) =
      (match foldSetU out A with
       | Except.ok out2 => foldSetU out2 B
       | Except.error e => Except.error e) := by
  intro A
  induction A with
  | nil =>
    intro B out
    have h : foldSetU out ([] : List (List String × JVal)) = Except.ok out := by
      simp only [foldSetU, except_pure_eq]
    rw [List.nil_append, h]
  | cons pv rest ih =>
    intro B out
    rw [List.cons_append, foldSetU_cons, foldSetU_cons]
    cases hv : unflattenVal pv.2 with
    | error e => rfl
    | ok v2 =>
      show (match setNested out pv.1 v2 with
          | some o2 => foldSetU o2 (rest ++ B)
          | none => Except.error (UnflattenError.structureConflict (dotJoin pv.1))) =
        (match (match setNested out pv.1 v2 with
            | some o2 => foldSetU o2 rest
            | none => Except.error (UnflattenError.structureConflict (dotJoin pv.1))) with
          | Except.ok out2 => foldSetU out2 B
          | Except.error e => Except.error e)
      cases hs : setNested out pv.1 v2 with
      | none => rfl
      | some out2 => exact ih B out2

theorem foldSetU_create (out : Obj) (k : String) (hck : containsKey out k = false) :
    ∀ (p : List String) (v : JVal) (L : List (List String × JVal)),
      foldSetU out ((k :: p, v) :: L) =
        foldSetU (out ++ [(k, JVal.obj [])]) ((k :: p, v) :: L) := by
  intro p v L
  rw [foldSetU_cons, foldSetU_cons]
  cases hv : unflattenVal v with
  | error e => rfl
  | ok v2 =>
    show (match setNested out (k :: p) v2 with
        | some out2 => foldSetU out2 L
        | none => Except.error (UnflattenError.structureConflict (dotJoin (k :: p)))) =
      (match setNested (out ++ [(k, JVal.obj [])]) (k :: p) v2 with
        | some out2 => foldSetU out2 L
        | none => Except.error (UnflattenError.structureConflict (dotJoin (k :: p))))
    cases p with
    | nil =>
      have h1 : setNested out [k] v2 = some (dset out k v2) := by
        simp only [setNested]
      have h2 : setNested (out ++ [(k, JVal.obj [])]) [k] v2 =
          some (dset (out ++ [(k, JVal.obj [])]) k v2) := by
        simp only [setNested]
      rw [h1, h2, dset_append_of_not_contains out k v2 hck,
        dset_append_last out k (JVal.obj []) v2 hck]
    | cons p1 prest =>
      have hg1 : dget? out k = none := (containsKey_eq_false_iff out k).mp hck
      have hg2 : dget? (out ++ [(k, JVal.obj [])]) k = some (JVal.obj []) := by
        rw [dget?_append, hg1]
        show dget? [(k, JVal.obj [])] k = some (JVal.obj [])
        rw [dget?, if_pos rfl]
      have h1 : setNested out (k :: p1 :: prest) v2 =
          (setNested ([] : Obj) (p1 :: prest) v2).map (fun m2 => dset out k (JVal.obj m2)) := by
        rw [setNested_cons_cons, hg1]
      have h2 : setNested (out ++ [(k, JVal.obj [])]) (k :: p1 :: prest) v2 =
          (setNested ([] : Obj) (p1 :: prest) v2).map
            (fun m2 => dset (out ++ [(k, JVal.obj [])]) k (JVal.obj m2)) := by
        rw [setNested_cons_cons, hg2]
      rw [h1, h2]
      cases hs : setNested ([] : Obj) (p1 :: prest) v2 with
      | none => rfl
      | some m2 =>
        rw [Option.map_some', Option.map_some',
          dset_append_of_not_contains out k (JVal.obj m2) hck,
          dset_append_last out k (JVal.obj []) (JVal.obj m2) hck]

theorem foldSetU_lift : ∀ (L : List (List String × JVal)) (out0 : Obj) (k : String)
    (s s2 : Obj), containsKey out0 k = false →
    foldSetU s L = Except.ok s2 →
    foldSetU (out0 ++ [(k, JVal.obj s)]) (L.map (fun pv => (k :: pv.1, pv.2))) =
      Except.ok (out0 ++ [(k, JVal.obj s2)]) := by
  intro L
  induction L with
  | nil =>
    intro out0 k s s2 hck h
    have hs : s = s2 := by
      have h2 : (Except.ok s : Except UnflattenError Obj) = Except.ok s2 := h
      exact Except.ok.inj h2
    subst hs
    simp only [List.map_nil, foldSetU, except_pure_eq]
  | cons pv rest ih =>
    intro out0 k s s2 hck h
    obtain ⟨p, v⟩ := pv
    rw [foldSetU_cons] at h
    have h1 : (match unflattenVal v with
        | Except.ok v2 =>
          (match setNested s p v2 with
           | some out2 => foldSetU out2 rest
           | none => Except.error (UnflattenError.structureConflict (dotJoin p)))
        | Except.error e => Except.error e) = Except.ok s2 := h
    rw [List.map_cons, foldSetU_cons]
    show (match unflattenVal v with
        | Except.ok v2 =>
          (match setNested (out0 ++ [(k, JVal.obj s)]) (k :: p) v2 with
           | some out2 => foldSetU out2 (rest.map (fun pv => (k :: pv.1, pv.2)))
           | none => Except.error (UnflattenError.structureConflict (dotJoin (k :: p))))
        | Except.error e => Except.error e) = Except.ok (out0 ++ [(k, JVal.obj s2)])
    cases hv : unflattenVal v with
    | error e =>
      rw [hv] at h1
      exact absurd (show (Except.error e : Except UnflattenError Obj) = Except.ok s2 from h1)
        (fun hx => Except.noConfusion hx)
    | ok v2 =>
      rw [hv] at h1
      have h2 : (match setNested s p v2 with
          | some out2 => foldSetU out2 rest
          | none => Except.error (UnflattenError.structureConflict (dotJoin p))) =
          Except.ok s2 := h1
      show (match setNested (out0 ++ [(k, JVal.obj s)]) (k :: p) v2 with
          | some out2 => foldSetU out2 (rest.map (fun pv => (k :: pv.1, pv.2)))
          | none => Except.error (UnflattenError.structureConflict (dotJoin (k :: p)))) =
        Except.ok (out0 ++ [(k, JVal.obj s2)])
      cases hs : setNested s p v2 with
      | none =>
        rw [hs] at h2
        exact absurd (show (Except.error (UnflattenError.structureConflict (dotJoin p)) :
            Except UnflattenError Obj) = Except.ok s2 from h2)
          (fun hx => Except.noConfusion hx)
      | some sNew =>
        rw [hs] at h2
        have h3 : foldSetU sNew rest = Except.ok s2 := h2
        cases p with
        | nil =>
          exact absurd (show (none : Option Obj) = some sNew from hs)
            (fun hx => Option.noConfusion hx)
        | cons p1 prest =>
          have hg2 : dget? (out0 ++ [(k, JVal.obj s)]) k = some (JVal.obj s) := by
            rw [dget?_append, (containsKey_eq_false_iff out0 k).mp hck]
            show dget? [(k, JVal.obj s)] k = some (JVal.obj s)
            rw [dget?, if_pos rfl]
          have hsn : setNested (out0 ++ [(k, JVal.obj s)]) (k :: p1 :: prest) v2 =
              some (dset (out0 ++ [(k, JVal.obj s)]) k (JVal.obj sNew)) := by
            rw [setNested_cons_cons, hg2]
            show (setNested s (p1 :: prest) v2).map
                (fun m2 => dset (out0 ++ [(k, JVal.obj s)]) k (JVal.obj m2)) =
              some (dset (out0 ++ [(k, JVal.obj s)]) k (JVal.obj sNew))
            rw [hs, Option.map_some']
          rw [hsn, dset_append_last out0 k (JVal.obj s) (JVal.obj sNew) hck]
          show foldSetU (out0 ++ [(k, JVal.obj sNew)])
              (rest.map (fun pv => (k :: pv.1, pv.2))) =
            Except.ok (out0 ++ [(k, JVal.obj s2)])
          exact ih out0 k sNew s2 hck h3

theorem foldU_transport : ∀ (L : List (List String × JVal)) (out : Obj),
    (∀ pv ∈ L, pv.1 ≠ [] ∧ ∀ s ∈ pv.1, goodKey s = true) →
    unflattenItems (L.map (fun pv => (dotJoin pv.1, pv.2))) out = foldSetU out L := by
  intro L
  induction L with
  | nil =>
    intro out hg
    simp only [List.map_nil, unflattenItems, foldSetU]
  | cons pv rest ih =>
    intro out hg
    obtain ⟨p, v⟩ := pv
    obtain ⟨hpne, hpgood⟩ := hg (p, v) (List.mem_cons_self _ _)
    rw [List.map_cons, foldSetU_cons]
    cases hv : unflattenVal v with
    | error e =>
      show unflattenItems ((dotJoin p, v) :: rest.map (fun pv => (dotJoin pv.1, pv.2))) out =
        Except.error e
      simp only [unflattenItems, hv, except_bind_error]
    | ok v2 =>
      show unflattenItems ((dotJoin p, v) :: rest.map (fun pv => (dotJoin pv.1, pv.2))) out =
        (match setNested out p v2 with
         | some out2 => foldSetU out2 rest
         | none => Except.error (UnflattenError.structureConflict (dotJoin p)))
      simp only [unflattenItems, hv, except_bind_ok]
      rw [splitDot_dotJoin p hpgood hpne]
      cases hs : setNested out p v2 with
      | none => rfl
      | some out2 =>
        show unflattenItems (rest.map (fun pv => (dotJoin pv.1, pv.2))) out2 =
          foldSetU out2 rest
        exact ih out2 (fun pv h2 => hg pv (List.mem_cons_of_mem _ h2))

/-! ## Claim C1: the round trip -/

theorem roundtrip_step_nonobj (k : String) (v : JVal) (rest out : Obj)
    (hps : pathsO ((k, v) :: rest) = ([k], v) :: pathsO rest)
    (hval : unflattenVal (flatVal v) = Except.ok v)
    (hfresh : ∀ kv ∈ (k, v) :: rest, containsKey out kv.1 = false)
    (hckrest : containsKey rest k = false)
    (ih : ∀ out2 : Obj, (∀ kv ∈ rest, containsKey out2 kv.1 = false) →
      foldSetU out2 ((pathsO rest).map (fun pv => (pv.1, flatVal pv.2))) =
        Except.ok (out2 ++ rest)) :
    foldSetU out ((pathsO ((k, v) :: rest)).map (fun pv => (pv.1, flatVal pv.2))) =
      Except.ok (out ++ (k, v) :: rest) := by
  rw [hps, List.map_cons, foldSetU_cons]
  show (match unflattenVal (flatVal v) with
      | Except.ok v2 =>
        (match setNested out [k] v2 with
         | some out2 => foldSetU out2 ((pathsO rest).map (fun pv => (pv.1, flatVal pv.2)))
         | none => Except.error (UnflattenError.structureConflict (dotJoin [k])))
      | Except.error e => Except.error e) = Except.ok (out ++ (k, v) :: rest)
  rw [hval]
  show (match setNested out [k] v with
      | some out2 => foldSetU out2 ((pathsO rest).map (fun pv => (pv.1, flatVal pv.2)))
      | none => Except.error (UnflattenError.structureConflict (dotJoin [k]))) =
    Except.ok (out ++ (k, v) :: rest)
  have hsn : setNested out [k] v = some (dset out k v) := by
    simp only [setNested]
  have hck0 : containsKey out k = false := hfresh (k, v) (List.mem_cons_self _ _)
  rw [hsn, dset_append_of_not_contains out k v hck0]
  show foldSetU (out ++ [(k, v)]) ((pathsO rest).map (fun pv => (pv.1, flatVal pv.2))) =
    Except.ok (out ++ (k, v) :: rest)
  rw [ih (out ++ [(k, v)]) ?fr]
  · rw [List.append_assoc, List.singleton_append]
  case fr =>
    intro kv hkv
    rw [containsKey_append]
    have h1 : containsKey out kv.1 = false := hfresh kv (List.mem_cons_of_mem _ hkv)
    have hne : ¬ (k = kv.1) :=
      fun he => ne_key_of_not_contains rest k hckrest kv hkv he.symm
    have h2 : containsKey [(k, v)] kv.1 = false := by
      rw [containsKey_eq_false_iff, dget?, if_neg hne]
      rfl
    rw [h1, h2]
    rfl

theorem roundtrip_aux : ∀ n : Nat,
    (∀ m : Obj, sizeOf m ≤ n → goodObj m = true →
      ∀ out : Obj, (∀ kv ∈ m, containsKey out kv.1 = false) →
        foldSetU out ((pathsO m).map (fun pv => (pv.1, flatVal pv.2))) =
          Except.ok (out ++ m)) ∧
    (∀ l : List JVal, sizeOf l ≤ n → goodElems l = true →
      unflattenElems (flattenElems l) = Except.ok l) := by
  intro n
  induction n with
  | zero =>
    constructor
    · intro m hm
      exfalso
      cases m with
      | nil => simp only [List.nil.sizeOf_spec] at hm; omega
      | cons kv rest => simp only [List.cons.sizeOf_spec] at hm; omega
    · intro l hl
      exfalso
      cases l with
      | nil => simp only [List.nil.sizeOf_spec] at hl; omega
      | cons v rest => simp only [List.cons.sizeOf_spec] at hl; omega
  | succ n ih =>
    obtain ⟨ihL, ihB⟩ := ih
    constructor
    · intro m hm hg out hfresh
      cases m with
      | nil =>
        simp only [pathsO, List.map_nil, foldSetU, except_pure_eq, List.append_nil]
      | cons kv rest =>
        obtain ⟨k, v⟩ := kv
        obtain ⟨hk, hck, hobj, hv, hrest⟩ := goodObj_cons k v rest hg
        have hszrest : sizeOf rest ≤ n := by
          simp only [List.cons.sizeOf_spec, Prod.mk.sizeOf_spec] at hm
          omega
        have ihrest : ∀ out2 : Obj, (∀ kv2 ∈ rest, containsKey out2 kv2.1 = false) →
            foldSetU out2 ((pathsO rest).map (fun pv => (pv.1, flatVal pv.2))) =
              Except.ok (out2 ++ rest) :=
          fun out2 hf => ihL rest hszrest hrest out2 hf
        cases v
        case obj m' =>
          have hm'g : goodObj m' = true := (hobj m' rfl).2
          have hm'ne : m' ≠ [] := by
            have h1 := (hobj m' rfl).1
            intro he
            rw [he] at h1
            simp at h1
          have hszm' : sizeOf m' ≤ n := by
            simp only [List.cons.sizeOf_spec, Prod.mk.sizeOf_spec, JVal.obj.sizeOf_spec] at hm
            omega
          obtain ⟨hgood', hnodup', hnenil'⟩ := pathsO_props_all m' hm'g
          have hpne : pathsO m' ≠ [] := hnenil' hm'ne
          have hinner : foldSetU ([] : Obj)
              ((pathsO m').map (fun pv => (pv.1, flatVal pv.2))) = Except.ok m' := by
            rw [ihL m' hszm' hm'g [] (fun kv _ => rfl)]
            rw [List.nil_append]
          have hps : pathsO ((k, JVal.obj m') :: rest) =
              ((pathsO m').map (fun pv => (k :: pv.1, pv.2))) ++ pathsO rest := by
            simp only [pathsO]
          rw [hps, List.map_append, foldSetU_append]
          have hswap : ((pathsO m').map (fun pv => (k :: pv.1, pv.2))).map
                (fun pv => (pv.1, flatVal pv.2)) =
              ((pathsO m').map (fun pv => (pv.1, flatVal pv.2))).map
                (fun pv => (k :: pv.1, pv.2)) := by
            rw [List.map_map, List.map_map]
            rfl
          rw [hswap]
          have hck0 : containsKey out k = false :=
            hfresh (k, JVal.obj m') (List.mem_cons_self _ _)
          cases hLs : (pathsO m').map (fun pv => (pv.1, flatVal pv.2)) with
          | nil =>
            exfalso
            rw [List.map_eq_nil_iff] at hLs
            exact hpne hLs
          | cons pv0 L2 =>
            obtain ⟨p0, v0⟩ := pv0
            rw [hLs] at hinner
            have hmc : (((p0, v0) :: L2).map (fun pv => (k :: pv.1, pv.2))) =
                (k :: p0, v0) :: L2.map (fun pv => (k :: pv.1, pv.2)) := by
              rw [List.map_cons]
            rw [hmc, foldSetU_create out k hck0 p0 v0
              (L2.map (fun pv => (k :: pv.1, pv.2))), ← hmc]
            rw [foldSetU_lift ((p0, v0) :: L2) out k [] m' hck0 hinner]
            show foldSetU (out ++ [(k, JVal.obj m')])
                ((pathsO rest).map (fun pv => (pv.1, flatVal pv.2))) =
              Except.ok (out ++ (k, JVal.obj m') :: rest)
            rw [ihrest (out ++ [(k, JVal.obj m')]) ?frr]
            · rw [List.append_assoc, List.singleton_append]
            case frr =>
              intro kv2 hkv2
              rw [containsKey_append]
              have h1 : containsKey out kv2.1 = false :=
                hfresh kv2 (List.mem_cons_of_mem _ hkv2)
              have hne : ¬ (k = kv2.1) :=
                fun he => ne_key_of_not_contains rest k hck kv2 hkv2 he.symm
              have h2 : containsKey [(k, JVal.obj m')] kv2.1 = false := by
                rw [containsKey_eq_false_iff, dget?, if_neg hne]
                rfl
              rw [h1, h2]
              rfl
        case arr l =>
          have hla : goodElems l = true := by simpa [goodVal] using hv
          have hszl : sizeOf l ≤ n := by
            simp only [List.cons.sizeOf_spec, Prod.mk.sizeOf_spec, JVal.arr.sizeOf_spec] at hm
            omega
          exact roundtrip_step_nonobj k (JVal.arr l) rest out (by simp only [pathsO])
            (by simp only [flatVal, unflattenVal, ihB l hszl hla, except_bind_ok,
              except_pure_eq])
            hfresh hck ihrest
        case null =>
          exact roundtrip_step_nonobj k JVal.null rest out (by simp only [pathsO])
            (by simp only [flatVal, unflattenVal, except_pure_eq]) hfresh hck ihrest
        case bool b =>
          exact roundtrip_step_nonobj k (JVal.bool b) rest out (by simp only [pathsO])
            (by simp only [flatVal, unflattenVal, except_pure_eq]) hfresh hck ihrest
        case int i =>
          exact roundtrip_step_nonobj k (JVal.int i) rest out (by simp only [pathsO])
            (by simp only [flatVal, unflattenVal, except_pure_eq]) hfresh hck ihrest
        case str s2 =>
          exact roundtrip_step_nonobj k (JVal.str s2) rest out (by simp only [pathsO])
            (by simp only [flatVal, unflattenVal, except_pure_eq]) hfresh hck ihrest
        case date e o =>
          exact roundtrip_step_nonobj k (JVal.date e o) rest out (by simp only [pathsO])
            (by simp only [flatVal, unflattenVal, except_pure_eq]) hfresh hck ihrest
    · intro l hl hge
      cases l with
      | nil =>
        simp only [flattenElems, unflattenElems, except_pure_eq]
      | cons v rest =>
        have hge2 : goodVal v = true ∧ goodElems rest = true := by
          simp only [goodElems, Bool.and_eq_true] at hge
          exact hge
        obtain ⟨hv, hrest⟩ := hge2
        have hszrest : sizeOf rest ≤ n := by
          simp only [List.cons.sizeOf_spec] at hl
          omega
        have hB : unflattenElems (flattenElems rest) = Except.ok rest :=
          ihB rest hszrest hrest
        cases v
        case obj m2 =>
          have hm2g : goodObj m2 = true := by simpa [goodVal] using hv
          have hszm2 : sizeOf m2 ≤ n := by
            simp only [List.cons.sizeOf_spec, JVal.obj.sizeOf_spec] at hl
            omega
          obtain ⟨hgood2, -, -⟩ := pathsO_props_all m2 hm2g
          have hud : unflatten_dict (flatten_dict m2 "") = Except.ok m2 := by
            have h0 : flatten_dict m2 "" = flattenItems m2 (dotJoin []) [] := by
              simp only [flatten_dict]
              rw [show dotJoin ([] : List String) = "" from rfl]
            have hflat : flatten_dict m2 "" =
                (pathsO m2).map (fun pv => (dotJoin pv.1, flatVal pv.2)) := by
              rw [h0, flattenItems_eq m2 [] [] hm2g (by intro s hs; simp at hs)
                (fun pv _ => rfl), List.nil_append]
              apply List.map_congr_left
              intro pv hmem
              rw [List.nil_append]
            have hud0 : unflatten_dict (flatten_dict m2 "") =
                unflattenItems (flatten_dict m2 "") [] := by
              simp only [unflatten_dict]
            rw [hud0, hflat]
            have hsw : (pathsO m2).map (fun pv => (dotJoin pv.1, flatVal pv.2)) =
                ((pathsO m2).map (fun pv => (pv.1, flatVal pv.2))).map
                  (fun pv => (dotJoin pv.1, pv.2)) := by
              rw [List.map_map]
              rfl
            rw [hsw, foldU_transport ((pathsO m2).map (fun pv => (pv.1, flatVal pv.2)))
              [] ?gl]
            · rw [ihL m2 hszm2 hm2g [] (fun kv _ => rfl)]
              rw [List.nil_append]
            case gl =>
              intro pv hpv
              obtain ⟨pv2, hpv2, he⟩ := List.mem_map.mp hpv
              obtain ⟨h1, h2⟩ := hgood2 pv2 hpv2
              rw [← he]
              exact ⟨h1, h2⟩
          simp only [flattenElems, unflattenElems, hud, hB, except_bind_ok, except_pure_eq]
        case null =>
          simp only [flattenElems, unflattenElems, hB, except_bind_ok, except_pure_eq]
        case bool b =>
          simp only [flattenElems, unflattenElems, hB, except_bind_ok, except_pure_eq]
        case int i =>
          simp only [flattenElems, unflattenElems, hB, except_bind_ok, except_pure_eq]
        case str s2 =>
          simp only [flattenElems, unflattenElems, hB, except_bind_ok, except_pure_eq]
        case date e o =>
          simp only [flattenElems, unflattenElems, hB, except_bind_ok, except_pure_eq]
        case arr l2 =>
          simp only [flattenElems, unflattenElems, hB, except_bind_ok, except_pure_eq]

theorem roundtripL_final (m : Obj) (hg : goodObj m = true) (out : Obj)
    (hfresh : ∀ kv ∈ m, containsKey out kv.1 = false) :
    foldSetU out ((pathsO m).map (fun pv => (pv.1, flatVal pv.2))) = Except.ok (out ++ m) :=
  (roundtrip_aux (sizeOf m)).1 m le_rfl hg out hfresh

theorem unflatten_flatten (m : Obj) (hg : goodObj m = true) :
    unflatten_dict (flatten_dict m "") = Except.ok m := by
  obtain ⟨hgood, -, -⟩ := pathsO_props_all m hg
  have h0 : flatten_dict m "" = flattenItems m (dotJoin []) [] := by
    simp only [flatten_dict]
    rw [show dotJoin ([] : List String) = "" from rfl]
  have hflat : flatten_dict m "" = (pathsO m).map (fun pv => (dotJoin pv.1, flatVal pv.2)) := by
    rw [h0, flattenItems_eq m [] [] hg (by intro s hs; simp at hs) (fun pv _ => rfl),
      List.nil_append]
    apply List.map_congr_left
    intro pv hmem
    rw [List.nil_append]
  have hud0 : unflatten_dict (flatten_dict m "") = unflattenItems (flatten_dict m "") [] := by
    simp only [unflatten_dict]
  rw [hud0, hflat]
  have hsw : (pathsO m).map (fun pv => (dotJoin pv.1, flatVal pv.2)) =
      ((pathsO m).map (fun pv => (pv.1, flatVal pv.2))).map (fun pv => (dotJoin pv.1, pv.2)) := by
    rw [List.map_map]
    rfl
  rw [hsw, foldU_transport ((pathsO m).map (fun pv => (pv.1, flatVal pv.2))) [] ?gl]
  · rw [roundtripL_final m hg [] (fun kv _ => rfl)]
    rw [List.nil_append]
  case gl =>
    intro pv hpv
    obtain ⟨pv2, hpv2, he⟩ := List.mem_map.mp hpv
    obtain ⟨h1, h2⟩ := hgood pv2 hpv2
    rw [← he]
    exact ⟨h1, h2⟩

/-- C1: as stated the round trip fails: `flatten_dict` silently drops nested empty
mappings, so `unflatten_dict (flatten_dict {"a": {}})` is `{}`, not `{"a": {}}`, even
though the key `"a"` satisfies the claim's key condition. -/
theorem c1_counterexample :
    goodKey "a" = true ∧
    unflatten_dict (flatten_dict [("a", JVal.obj [])] "") = Except.ok ([] : Obj) ∧
    ([] : Obj) ≠ [("a", JVal.obj [])] := by
  refine ⟨by decide, ?_, ?_⟩
  · simp only [flatten_dict, flattenItems, dictUpdate, List.foldl_nil, unflatten_dict,
      unflattenItems, except_pure_eq]
  · intro h
    exact List.noConfusion h

/-- C1 as amended: for every nested mapping whose keys at every depth are non-empty,
dot-free, non-numeric strings, pairwise distinct within each mapping, and in which no
mapping stored as a value is empty, `unflatten_dict (flatten_dict m "")` returns the
original mapping (`goodObj` packages exactly these conditions). -/
theorem c1_flatten_unflatten_roundtrip (m : Obj) (hg : goodObj m = true) :
    unflatten_dict (flatten_dict m "") = Except.ok m :=
  unflatten_flatten m hg

/-- Closed witness for C1 at a mapping with a nested mapping and a list holding a
mapping element. -/
theorem c1_flatten_unflatten_roundtrip_witness :
    goodObj [("name", JVal.str "MM"),
      ("location", JVal.obj [("city", JVal.str "Charlotte"), ("state", JVal.str "NC")]),
      ("tags", JVal.arr [JVal.int 1, JVal.obj [("x", JVal.int 2)]])] = true ∧
    unflatten_dict (flatten_dict [("name", JVal.str "MM"),
      ("location", JVal.obj [("city", JVal.str "Charlotte"), ("state", JVal.str "NC")]),
      ("tags", JVal.arr [JVal.int 1, JVal.obj [("x", JVal.int 2)]])] "") =
      Except.ok [("name", JVal.str "MM"),
        ("location", JVal.obj [("city", JVal.str "Charlotte"), ("state", JVal.str "NC")]),
        ("tags", JVal.arr [JVal.int 1, JVal.obj [("x", JVal.int 2)]])] := by
  have hg : goodObj [("name", JVal.str "MM"),
      ("location", JVal.obj [("city", JVal.str "Charlotte"), ("state", JVal.str "NC")]),
      ("tags", JVal.arr [JVal.int 1, JVal.obj [("x", JVal.int 2)]])] = true := by
    simp only [goodObj, goodVal, goodElems]
    decide
  exact ⟨hg, c1_flatten_unflatten_roundtrip _ hg⟩

end SinglebaseSpec
